import Mathlib

/-!
SLICES tokenizer

A shallow embedding of `slices_tokenizer.hpp` (class `SLICESTokenizer`) and
theorems about segmentation, training, encoding, decoding and persistence.

Modelling conventions.

* A `std::string` is a `List Char`, one `Char` per `char`; `std::isupper`,
  `std::islower` and `std::isdigit` are those of the default "C" locale.
* `size_t` indices and the `int` occurrence counters are natural numbers (a text
  or a corpus never holds `2^31` tokens); `int` ids and capacities are integers.
* A `std::unordered_map` is an association list with unique keys: `find` is
  `unordered_map::find`, `assign` is `m[k] = v`.  The order in which a
  `std::unordered_map` is enumerated and the order in which `std::sort` leaves
  equivalent elements are not fixed by C++; both are taken from a `StdLib` value.
* A record is the `nlohmann::json` value that `save` dumps and `load` parses; writing the
  file and parsing it back is the identity on these values.
* `pre_tokenize_checked` is the scan loop of `pre_tokenize` once more, with every read of the
  text checked against its length; `regex_tokenize` is the iteration over the matches of the
  pattern `[A-Z][a-z]?|\d+|[+\-o]{3}` by a backtracking matcher (`std::regex`, ECMAScript).
* Console output (`fmt::print`) is not modelled.
-/

namespace Slices

/-- The type of `std::string` values. -/
abbrev Str := List Char

/-- The function `std::isupper` in the "C" locale. -/
def isupper (c : Char) : Bool := decide (65 ≤ c.toNat) && decide (c.toNat ≤ 90)

/-- The function `std::islower` in the "C" locale. -/
def islower (c : Char) : Bool := decide (97 ≤ c.toNat) && decide (c.toNat ≤ 122)

/-- The function `std::isdigit`. -/
def isdigit (c : Char) : Bool := decide (48 ≤ c.toNat) && decide (c.toNat ≤ 57)

/-- The test `c == '+' || c == '-' || c == 'o'` of the bond-descriptor case. -/
def is_bond_char (c : Char) : Bool := c == '+' || c == '-' || c == 'o'

/-- The access `text[i]`; `std::string::operator[]` yields the null character at `size()`. -/
def char_at (text : Str) (i : Nat) : Char := text.getD i (Char.ofNat 0)

/-- The call `text.substr(pos, len)`. -/
def substr (text : Str) (pos len : Nat) : Str := (text.drop pos).take len

/-- The struct `TokenSpan`; the field `end` is spelled `end_`. -/
structure TokenSpan where
  token : Str
  start : Nat
  end_ : Nat
deriving DecidableEq, Repr

/-- The struct `Encoding`. -/
structure Encoding where
  tokens : List Str
  ids : List Int
  spans : List TokenSpan
deriving DecidableEq, Repr

/-- The inner `while` of the number case: `token_len` grows while `text[i + token_len]` is a
digit.  The first argument bounds the number of iterations. -/
def digit_run (text : Str) (i : Nat) : Nat → Nat → Nat
  | 0, token_len => token_len
  | fuel + 1, token_len =>
    if i + token_len < text.length && isdigit (char_at text (i + token_len)) then
      digit_run text i fuel (token_len + 1)
    else token_len

/-- The value of `token_len` that one iteration of the scan loop of `pre_tokenize` computes at
position `i` (`0` when no case applies). -/
def match_len (text : Str) (i : Nat) : Nat :=
  if isupper (char_at text i) then
    if i + 1 < text.length && islower (char_at text (i + 1)) then 2 else 1
  else if isdigit (char_at text i) then
    digit_run text i text.length 1
  else if i + 2 < text.length && is_bond_char (char_at text i) &&
      is_bond_char (char_at text (i + 1)) && is_bond_char (char_at text (i + 2)) then 3
  else 0

/-- The scan loop `for (size_t i = 0; i < text.length(); )` of `pre_tokenize`, from position
`i` with the spans collected so far.  The first argument bounds the number of iterations. -/
def pre_tokenize_loop (text : Str) : Nat → Nat → List TokenSpan → List TokenSpan
  | 0, _, tokens => tokens
  | fuel + 1, i, tokens =>
    if i < text.length then
      let start := i
      let token_len := match_len text i
      if token_len > 0 then
        pre_tokenize_loop text fuel (i + token_len)
          (tokens ++ [⟨substr text start token_len, start, start + token_len⟩])
      else
        pre_tokenize_loop text fuel (i + 1) tokens
    else tokens

/-- The method `SLICESTokenizer::pre_tokenize`.  Every iteration advances `i` by at least one,
so `text.length` iterations are enough (`pre_tokenize_loop_fuel`). -/
def pre_tokenize (text : Str) : List TokenSpan :=
  pre_tokenize_loop text text.length 0 []

/-- The method `unordered_map::find`, as an optional value. -/
def find {K V : Type} [DecidableEq K] : List (K × V) → K → Option V
  | [], _ => none
  | (k, v) :: m, q => if k = q then some v else find m q

/-- The assignment `m[k] = v` on an `unordered_map`. -/
def assign {K V : Type} [DecidableEq K] : List (K × V) → K → V → List (K × V)
  | [], q, x => [(q, x)]
  | (k, v) :: m, q, x => if k = q then (k, x) :: m else (k, v) :: assign m q x

/-- The mutable data members of `SLICESTokenizer`.  The members `special_tokens_`,
`special_tokens_set_` and the six special ids are set by the constructor and never written
again; they are the constants below. -/
structure SLICESTokenizer where
  vocab_ : List (Str × Int)
  id_to_token_ : List (Int × Str)
  vocab_size_ : Int
  unk_token_ : Str
  slices_pattern_ : Str

/-- The member `special_tokens_`. -/
def special_tokens_ : List Str :=
  ["[UNK]".toList, "[PAD]".toList, "[CLS]".toList, "[SEP]".toList, "[MASK]".toList,
    "[EOS]".toList]

/-- The member `unk_token_id_`. -/
def unk_token_id_ : Int := 0

/-- The pattern text `[A-Z][a-z]?|\d+|[+\-o]{3}` of the constructor and of `save`. -/
def slices_pattern_text : Str := "[A-Z][a-z]?|\\d+|[+\\-o]\x7b3\x7d".toList

/-- The constructor `SLICESTokenizer()`. -/
def SLICESTokenizer.new : SLICESTokenizer :=
  ⟨[], [], 1000, "[UNK]".toList, slices_pattern_text⟩

/-- What the code takes from the C++ standard library without fixing it: the order in which a
`std::unordered_map<std::string, int>` is enumerated (as a function of its entries in order of
first insertion), the result of `std::sort` with the comparator `a.second > b.second`, and
which pattern texts `std::regex` accepts. -/
structure StdLib where
  iteration : List (Str × Nat) → List (Str × Nat)
  iteration_perm : ∀ m, (iteration m).Perm m
  sort : List (Str × Nat) → List (Str × Nat)
  sort_perm : ∀ l, (sort l).Perm l
  sort_sorted : ∀ l, (sort l).Pairwise (fun a b => b.2 ≤ a.2)
  regex_valid : Str → Bool
  regex_valid_slices : regex_valid slices_pattern_text = true

/-- The statement `token_counts[token]++`. -/
def increment : List (Str × Nat) → Str → List (Str × Nat)
  | [], tok => [(tok, 1)]
  | (k, n) :: m, tok => if k = tok then (k, n + 1) :: m else (k, n) :: increment m tok

/-- The counting loops of `train_from_iterator`: the map `token_counts`, entries in order of
first insertion. -/
def count_tokens (training_data : List Str) : List (Str × Nat) :=
  training_data.foldl
    (fun counts text => (pre_tokenize text).foldl (fun c span => increment c span.token) counts)
    []

/-- The first loop of `train_from_iterator`: special token `i` gets id `i` in both maps. -/
def insert_special_tokens (t : SLICESTokenizer) : SLICESTokenizer :=
  special_tokens_.enum.foldl
    (fun s p =>
      { s with vocab_ := assign s.vocab_ p.2 (p.1 : Int),
               id_to_token_ := assign s.id_to_token_ (p.1 : Int) p.2 })
    t

/-- The last loop of `train_from_iterator` over `sorted_tokens`, with the running
`token_id`. -/
def assign_ids : List (Str × Nat) → Int → SLICESTokenizer → SLICESTokenizer
  | [], _, t => t
  | (token, _) :: rest, token_id, t =>
    if token_id ≥ t.vocab_size_ then t
    else if find t.vocab_ token = none then
      assign_ids rest (token_id + 1)
        { t with vocab_ := assign t.vocab_ token token_id,
                 id_to_token_ := assign t.id_to_token_ token_id token }
    else assign_ids rest token_id t

/-- The vector `sorted_tokens` of `train_from_iterator`. -/
def sorted_tokens (L : StdLib) (training_data : List Str) : List (Str × Nat) :=
  L.sort (L.iteration (count_tokens training_data))

/-- The method `SLICESTokenizer::train_from_iterator`.  The first id of a learned token is
`special_tokens_set_.size()`, the number of the (pairwise distinct) special tokens. -/
def train_from_iterator (L : StdLib) (t : SLICESTokenizer) (training_data : List Str)
    (vocab_size : Int) : SLICESTokenizer :=
  let t1 := { t with vocab_size_ := vocab_size }
  let t2 := { t1 with vocab_ := [], id_to_token_ := [] }
  let t3 := insert_special_tokens t2
  assign_ids (sorted_tokens L training_data) (special_tokens_.length : Int) t3

/-- The method `SLICESTokenizer::token_to_id`. -/
def token_to_id (t : SLICESTokenizer) (token : Str) : Int :=
  match find t.vocab_ token with
  | some id => id
  | none => unk_token_id_

/-- The method `SLICESTokenizer::id_to_token`. -/
def id_to_token (t : SLICESTokenizer) (id : Int) : Str :=
  match find t.id_to_token_ id with
  | some token => token
  | none => t.unk_token_

/-- The method `SLICESTokenizer::get_vocab_size`. -/
def get_vocab_size (t : SLICESTokenizer) : Int := (t.vocab_.length : Int)

/-- The loop of `encode` over the spans, appending to the three vectors. -/
def encode_loop (t : SLICESTokenizer) : List TokenSpan → Encoding → Encoding
  | [], encoding => encoding
  | token_span :: rest, encoding =>
    let token := token_span.token
    let id := match find t.vocab_ token with
      | some id => id
      | none => unk_token_id_
    encode_loop t rest
      ⟨encoding.tokens ++ [token], encoding.ids ++ [id], encoding.spans ++ [token_span]⟩

/-- The method `SLICESTokenizer::encode`. -/
def encode (t : SLICESTokenizer) (text : Str) : Encoding :=
  encode_loop t (pre_tokenize text) ⟨[], [], []⟩

/-- The call `fmt::join(tokens, " ")`, formatted: the strings with one space between
neighbours. -/
def join : List Str → Str
  | [] => []
  | [x] => x
  | x :: y :: rest => x ++ ' ' :: join (y :: rest)

/-- The method `SLICESTokenizer::decode`. -/
def decode (t : SLICESTokenizer) (ids : List Int) : Str :=
  let tokens := ids.foldl
    (fun tokens id =>
      match find t.id_to_token_ id with
      | some token => tokens ++ [token]
      | none => tokens ++ [t.unk_token_])
    []
  join tokens

/-- The value of `match_len` at the start of the remaining text `s`. -/
def head_len : Str → Nat
  | [] => 0
  | c :: cs =>
    if isupper c then
      match cs with
      | d :: _ => if islower d then 2 else 1
      | [] => 1
    else if isdigit c then 1 + (cs.takeWhile isdigit).length
    else
      match cs with
      | d :: e :: _ => if is_bond_char c && is_bond_char d && is_bond_char e then 3 else 0
      | _ => 0

/-- The scan loop of `pre_tokenize` on the remaining text `s`, which starts at offset `off`. -/
def scan : Nat → Nat → Str → List TokenSpan
  | 0, _, _ => []
  | _ + 1, _, [] => []
  | fuel + 1, off, c :: cs =>
    if head_len (c :: cs) > 0 then
      ⟨(c :: cs).take (head_len (c :: cs)), off, off + head_len (c :: cs)⟩ ::
        scan fuel (off + head_len (c :: cs)) ((c :: cs).drop (head_len (c :: cs)))
    else scan fuel (off + 1) cs

/-- An element symbol: one uppercase letter, optionally followed by one lowercase letter. -/
def is_element_symbol : Str → Bool
  | [c] => isupper c
  | [c, d] => isupper c && islower d
  | _ => false

/-- A non-empty run of decimal digits. -/
def is_digit_run (t : Str) : Bool := !t.isEmpty && t.all isdigit

/-- A bond descriptor: exactly three characters, each one of `+`, `-`, `o`. -/
def is_bond_triplet : Str → Bool
  | [a, b, c] => is_bond_char a && is_bond_char b && is_bond_char c
  | _ => false

/-- The three token shapes of a SLICES string. -/
def is_slices_token (t : Str) : Bool :=
  is_element_symbol t || is_digit_run t || is_bond_triplet t

/-- The scan of the whole remaining text `s`, which starts at offset `off`. -/
def scan_all (off : Nat) (s : Str) : List TokenSpan := scan s.length off s

/-- The token texts that the counting loops of `train_from_iterator` see, in scan order. -/
def corpus_tokens : List Str → List Str
  | [] => []
  | text :: rest => (pre_tokenize text).map (fun sp => sp.token) ++ corpus_tokens rest

/-- The entries `(token, id)` that consecutive ids from `k` on give to the tokens `ks`. -/
def learned : Int → List Str → List (Str × Int)
  | _, [] => []
  | k, tok :: rest => (tok, k) :: learned (k + 1) rest

/-- The entries of `vocab_` after the first loop of `train_from_iterator`. -/
def special_vocab : List (Str × Int) :=
  [("[UNK]".toList, 0), ("[PAD]".toList, 1), ("[CLS]".toList, 2), ("[SEP]".toList, 3),
    ("[MASK]".toList, 4), ("[EOS]".toList, 5)]

/-- The test `vocab_.find(token) != vocab_.end()`. -/
def in_vocab (t : SLICESTokenizer) (token : Str) : Bool := (find t.vocab_ token).isSome

/-- The first character of a token that the scan loop can emit. -/
def token_head_ok : Str → Bool
  | [] => false
  | c :: _ => isupper c || isdigit c || is_bond_char c

/-- A standard library whose hash map enumerates its entries in order of first insertion and
whose sort is a stable insertion sort. -/
def insertion_order_lib : StdLib where
  iteration := id
  iteration_perm := fun _ => List.Perm.refl _
  sort := List.insertionSort (fun a b => b.2 ≤ a.2)
  sort_perm := fun l => List.perm_insertionSort _ l
  sort_sorted := fun l =>
    haveI : IsTotal (Str × Nat) (fun a b => b.2 ≤ a.2) := ⟨fun a b => le_total b.2 a.2⟩
    haveI : IsTrans (Str × Nat) (fun a b => b.2 ≤ a.2) := ⟨fun _ _ _ h1 h2 => le_trans h2 h1⟩
    List.sorted_insertionSort _ l
  regex_valid := fun _ => true
  regex_valid_slices := rfl

/-- A standard library whose hash map enumerates the most recently inserted key first (as
libstdc++ does on a small map, where a new key is linked in at the front) and whose sort is the
insertion sort that `std::sort` runs on short ranges. -/
def newest_first_lib : StdLib where
  iteration := List.reverse
  iteration_perm := fun l => List.reverse_perm l
  sort := List.insertionSort (fun a b => b.2 ≤ a.2)
  sort_perm := fun l => List.perm_insertionSort _ l
  sort_sorted := fun l =>
    haveI : IsTotal (Str × Nat) (fun a b => b.2 ≤ a.2) := ⟨fun a b => le_total b.2 a.2⟩
    haveI : IsTrans (Str × Nat) (fun a b => b.2 ≤ a.2) := ⟨fun _ _ _ h1 h2 => le_trans h2 h1⟩
    List.sorted_insertionSort _ l
  regex_valid := fun _ => true
  regex_valid_slices := rfl

/-- A value of `nlohmann::json`: null, boolean, integer number, string, array or object.
Floating-point numbers are left out: no record of `save` holds one. -/
inductive Json where
  | null : Json
  | boolean : Bool → Json
  | number : Int → Json
  | string : Str → Json
  | array : List Json → Json
  | object : List (Str × Json) → Json

/-- The comparison `a < b` of two `std::string`s, which orders the members of a JSON object
(a `std::map`). -/
def str_lt : Str → Str → Bool
  | _, [] => false
  | [], _ :: _ => true
  | a :: as, b :: bs =>
    if a.toNat < b.toNat then true
    else if b.toNat < a.toNat then false
    else str_lt as bs

/-- The assignment `object[key] = value` on the members of a JSON object, kept sorted by
key. -/
def obj_set {V : Type} : List (Str × V) → Str → V → List (Str × V)
  | [], key, value => [(key, value)]
  | (k, v) :: rest, key, value =>
    if k = key then (k, value) :: rest
    else if str_lt key k then (key, value) :: (k, v) :: rest
    else (k, v) :: obj_set rest key value

/-- The conversion of a number to `int` (`static_cast<int>`): reduction modulo `2^32` into
the range of `int`. -/
def int_cast (n : Int) : Int := (n + 2147483648) % 4294967296 - 2147483648

/-- The conversion `get<int>()`: numbers and booleans convert, every other value is a
`type_error`. -/
def Json.to_int : Json → Option Int
  | Json.number n => some (int_cast n)
  | Json.boolean b => some (if b then 1 else 0)
  | _ => none

/-- The conversion `get<std::string>()`: every value but a string is a `type_error`. -/
def Json.to_str : Json → Option Str
  | Json.string s => some s
  | _ => none

/-- The members on which `config[key]` works: those of an object; null becomes the empty
object; on every other value `config[key]` is a `type_error`. -/
def Json.members : Json → Option (List (Str × Json))
  | Json.object kvs => some kvs
  | Json.null => some []
  | _ => none

/-- The read `config[key]` on the members of an object: a missing key yields null. -/
def json_field (kvs : List (Str × Json)) (key : Str) : Json := (find kvs key).getD Json.null

/-- The range `value.items()`: the members of an object, the elements of an array under their
decimal indices, nothing for null, and a primitive value alone under the empty key. -/
def Json.items : Json → List (Str × Json)
  | Json.object kvs => kvs
  | Json.array xs => xs.enum.map (fun p => ((Nat.repr p.1).toList, p.2))
  | Json.null => []
  | v => [([], v)]

/-- The record that `save` writes, as the JSON value `config` that is dumped to the file. -/
def save (t : SLICESTokenizer) : Json :=
  let config : List (Str × Json) := []
  let config := obj_set config "model_type".toList (Json.string "SLICESTokenizer".toList)
  let config := obj_set config "vocab_size".toList (Json.number t.vocab_size_)
  let config := obj_set config "unk_token".toList (Json.string t.unk_token_)
  let special : List (Str × Json) := []
  let special := obj_set special "unk_token".toList (Json.string t.unk_token_)
  let special := obj_set special "pad_token".toList (Json.string "[PAD]".toList)
  let special := obj_set special "cls_token".toList (Json.string "[CLS]".toList)
  let special := obj_set special "sep_token".toList (Json.string "[SEP]".toList)
  let special := obj_set special "mask_token".toList (Json.string "[MASK]".toList)
  let special := obj_set special "eos_token".toList (Json.string "[EOS]".toList)
  let config := obj_set config "special_tokens".toList (Json.object special)
  let vocab := t.vocab_.foldl (fun o p => obj_set o p.1 (Json.number p.2)) []
  let config := obj_set config "vocab".toList (Json.object vocab)
  let config := obj_set config "pattern".toList (Json.string slices_pattern_text)
  Json.object config

/-- The exceptions that `load` can raise once the file is parsed. -/
inductive LoadError where
  | type_error : LoadError
  | regex_error : LoadError
deriving DecidableEq, Repr

/-- The outcome of `load`: a normal return, or an exception; both with the state of the
tokenizer at that point. -/
inductive LoadResult where
  | returned : SLICESTokenizer → LoadResult
  | thrown : LoadError → SLICESTokenizer → LoadResult

/-- The loop of `load` over `config["vocab"].items()`. -/
def load_vocab_loop : List (Str × Json) → SLICESTokenizer → LoadResult
  | [], t => LoadResult.returned t
  | (token, id) :: rest, t =>
    match id.to_int with
    | none => LoadResult.thrown LoadError.type_error t
    | some token_id =>
      load_vocab_loop rest
        { t with vocab_ := assign t.vocab_ token token_id,
                 id_to_token_ := assign t.id_to_token_ token_id token }

/-- The method `SLICESTokenizer::load`, on the JSON value `config` parsed from the file. -/
def load (L : StdLib) (t : SLICESTokenizer) (config : Json) : LoadResult :=
  match config.members with
  | none => LoadResult.thrown LoadError.type_error t
  | some kvs =>
    match (json_field kvs "vocab_size".toList).to_int with
    | none => LoadResult.thrown LoadError.type_error t
    | some vocab_size =>
      let t1 := { t with vocab_size_ := vocab_size }
      match (json_field kvs "unk_token".toList).to_str with
      | none => LoadResult.thrown LoadError.type_error t1
      | some unk_token =>
        let t2 := { t1 with unk_token_ := unk_token }
        let t3 := { t2 with vocab_ := [], id_to_token_ := [] }
        match load_vocab_loop (json_field kvs "vocab".toList).items t3 with
        | LoadResult.thrown e t4 => LoadResult.thrown e t4
        | LoadResult.returned t4 =>
          if (find kvs "pattern".toList).isSome then
            match (json_field kvs "pattern".toList).to_str with
            | none => LoadResult.thrown LoadError.type_error t4
            | some pattern =>
              if L.regex_valid pattern then
                LoadResult.returned { t4 with slices_pattern_ := pattern }
              else LoadResult.thrown LoadError.regex_error t4
          else LoadResult.returned t4

/-- The state of the tokenizer when `load` is left, normally or by an exception. -/
def LoadResult.state : LoadResult → SLICESTokenizer
  | LoadResult.returned t => t
  | LoadResult.thrown _ t => t

/-- Whether `load` was left by an exception. -/
def LoadResult.failed : LoadResult → Bool
  | LoadResult.returned _ => false
  | LoadResult.thrown _ _ => true

/-- A record with `vocab_size` and `unk_token` but without `vocab`. -/
def record_without_vocab : Json :=
  Json.object [("unk_token".toList, Json.string "[UNK]".toList),
    ("vocab_size".toList, Json.number 10)]

/-- A record with `vocab_size` but without `unk_token`. -/
def record_without_unk_token : Json :=
  Json.object [("vocab".toList, Json.object [("Ga".toList, Json.number 6)]),
    ("vocab_size".toList, Json.number 5)]

/-- A record whose `vocab` gives the token `Bi` a string instead of an id. -/
def record_with_bad_id : Json :=
  Json.object [("unk_token".toList, Json.string "?".toList),
    ("vocab".toList, Json.object [("Bi".toList, Json.string "x".toList)]),
    ("vocab_size".toList, Json.number 5)]

/-- A record whose `vocab` gives the tokens `a` and `b` the same id. -/
def record_with_shared_id : Json :=
  Json.object [("unk_token".toList, Json.string "[UNK]".toList),
    ("vocab".toList, Json.object [("a".toList, Json.number 1), ("b".toList, Json.number 1)]),
    ("vocab_size".toList, Json.number 10)]

/-- No digit run is cut at position `p` of the text: `p` is the start of the text, or the
characters before and at `p` are not both digits. -/
def digit_border (text : Str) (p : Nat) : Bool :=
  p == 0 || !(isdigit (char_at text (p - 1)) && isdigit (char_at text p))

/-- The span `sp` is what one iteration of the scan loop emits at position `sp.start` of the
text, and the loop does not arrive there from inside a digit run. -/
def span_at (text : Str) (sp : TokenSpan) : Prop :=
  sp.start < text.length ∧ 0 < match_len text sp.start ∧
    sp.token = substr text sp.start (match_len text sp.start) ∧
    sp.end_ = sp.start + match_len text sp.start ∧ sp.end_ ≤ text.length ∧
    digit_border text sp.start = true

/-- The access `text[i]` with a bounds check: `none` stands for a read at or beyond
`text.length()`. -/
def read_at (text : Str) (i : Nat) : Option Char :=
  if i < text.length then some (char_at text i) else none

/-- The call `text.substr(pos, len)` with its check: it throws when `pos` exceeds the length
of the text. -/
def substr_checked (text : Str) (pos len : Nat) : Option Str :=
  if pos ≤ text.length then some (substr text pos len) else none

/-- The inner `while` of the number case with every read checked and the condition evaluated
left to right; `none` is a read outside the text or an exhausted iteration bound. -/
def digit_run_checked (text : Str) (i : Nat) : Nat → Nat → Option Nat
  | 0, _ => none
  | fuel + 1, token_len =>
    if i + token_len < text.length then
      match read_at text (i + token_len) with
      | none => none
      | some c =>
        if isdigit c then digit_run_checked text i fuel (token_len + 1) else some token_len
    else some token_len

/-- The body of the scan loop up to `token_len`, with every read checked and the conditions
evaluated left to right as `&&` and `||` do. -/
def match_len_checked (text : Str) (i : Nat) : Option Nat :=
  match read_at text i with
  | none => none
  | some c =>
    if isupper c then
      if i + 1 < text.length then
        match read_at text (i + 1) with
        | none => none
        | some d => if islower d then some 2 else some 1
      else some 1
    else if isdigit c then digit_run_checked text i (text.length + 1) 1
    else if i + 2 < text.length then
      if is_bond_char c then
        match read_at text (i + 1) with
        | none => none
        | some d =>
          if is_bond_char d then
            match read_at text (i + 2) with
            | none => none
            | some e => if is_bond_char e then some 3 else some 0
          else some 0
      else some 0
    else some 0

/-- The scan loop of `pre_tokenize` with every read checked; `none` is a read outside the
text, a failing `substr`, or an exhausted iteration bound. -/
def pre_tokenize_loop_checked (text : Str) : Nat → Nat → List TokenSpan → Option (List TokenSpan)
  | 0, _, _ => none
  | fuel + 1, i, tokens =>
    if i < text.length then
      match match_len_checked text i with
      | none => none
      | some token_len =>
        if token_len > 0 then
          match substr_checked text i token_len with
          | none => none
          | some token =>
            pre_tokenize_loop_checked text fuel (i + token_len)
              (tokens ++ [⟨token, i, i + token_len⟩])
        else pre_tokenize_loop_checked text fuel (i + 1) tokens
    else some tokens

/-- The method `pre_tokenize` with every read checked and at most `text.length() + 1`
evaluations of the loop condition. -/
def pre_tokenize_checked (text : Str) : Option (List TokenSpan) :=
  pre_tokenize_loop_checked text (text.length + 1) 0 []

/-- Whether position `i` of the text lies inside one of the spans. -/
def covered (spans : List TokenSpan) (i : Nat) : Bool :=
  spans.any (fun sp => decide (sp.start ≤ i) && decide (i < sp.end_))

/-- The text with the characters at positions outside all spans deleted. -/
def covered_text (text : Str) (spans : List TokenSpan) : Str :=
  ((List.range text.length).filter (covered spans)).map (char_at text)

/-- The concatenation of the token texts of the spans. -/
def concat_tokens : List TokenSpan → Str
  | [] => []
  | sp :: rest => sp.token ++ concat_tokens rest

/-- A regular expression of the fragment that the pattern of the tokenizer uses: a character
class, a character class repeated one or more times (greedy), concatenation, ordered
alternation, and the greedy option. -/
inductive Regex where
  | cls : (Char → Bool) → Regex
  | cls_plus : (Char → Bool) → Regex
  | seq : Regex → Regex → Regex
  | alt : Regex → Regex → Regex
  | opt : Regex → Regex

/-- The texts that remain after the class was matched zero or more times, longest match
first. -/
def star_ends (p : Char → Bool) : Str → List Str
  | [] => [[]]
  | c :: cs => if p c then star_ends p cs ++ [c :: cs] else [c :: cs]

/-- The continuation of every remainder of `xs`, in order. -/
def ends_then (f : Str → List Str) : List Str → List Str
  | [] => []
  | x :: xs => f x ++ ends_then f xs

/-- The texts that remain after each way in which the expression matches at the start of `s`,
in the order in which a backtracking matcher tries them: the left alternative before the right
one, the longer repetition before the shorter one. -/
def Regex.ends : Regex → Str → List Str
  | Regex.cls p, s =>
    match s with
    | [] => []
    | c :: cs => if p c then [cs] else []
  | Regex.cls_plus p, s =>
    match s with
    | [] => []
    | c :: cs => if p c then star_ends p cs else []
  | Regex.seq a b, s => ends_then (fun x => Regex.ends b x) (Regex.ends a s)
  | Regex.alt a b, s => Regex.ends a s ++ Regex.ends b s
  | Regex.opt a, s => Regex.ends a s ++ [s]

/-- The length of the match of the expression at the start of `s`, when there is one. -/
def Regex.match_at (r : Regex) (s : Str) : Option Nat :=
  match (r.ends s).head? with
  | some rest => some (s.length - rest.length)
  | none => none

/-- The leftmost match of the expression in `s`: its position and its length. -/
def leftmost_match (r : Regex) : Str → Option (Nat × Nat)
  | [] => none
  | c :: cs =>
    match r.match_at (c :: cs) with
    | some n => some (0, n)
    | none =>
      match leftmost_match r cs with
      | some (q, n) => some (q + 1, n)
      | none => none

/-- The successive non-overlapping leftmost matches of the expression in `s`, which starts at
offset `off`: every search starts where the last match ended.  An empty match, which the
pattern of the tokenizer cannot produce, is followed by a step of one character.  The first
argument bounds the number of matches. -/
def regex_matches (r : Regex) : Nat → Nat → Str → List TokenSpan
  | 0, _, _ => []
  | fuel + 1, off, s =>
    match leftmost_match r s with
    | none => []
    | some (q, n) =>
      ⟨(s.drop q).take n, off + q, off + q + n⟩ ::
        regex_matches r fuel (off + q + max n 1) (s.drop (q + max n 1))

/-- The class `[A-Z]`. -/
def class_upper (c : Char) : Bool := decide ('A' ≤ c) && decide (c ≤ 'Z')

/-- The class `[a-z]`. -/
def class_lower (c : Char) : Bool := decide ('a' ≤ c) && decide (c ≤ 'z')

/-- The class `\d`. -/
def class_digit (c : Char) : Bool := decide ('0' ≤ c) && decide (c ≤ '9')

/-- The class `[+\-o]`. -/
def class_bond (c : Char) : Bool := decide (c ∈ ['+', '-', 'o'])

/-- The abstract syntax of the pattern `[A-Z][a-z]?|\d+|[+\-o]{3}`. -/
def slices_regex : Regex :=
  Regex.alt (Regex.seq (Regex.cls class_upper) (Regex.opt (Regex.cls class_lower)))
    (Regex.alt (Regex.cls_plus class_digit)
      (Regex.seq (Regex.cls class_bond)
        (Regex.seq (Regex.cls class_bond) (Regex.cls class_bond))))

/-- The tokens that iterating over the matches of the pattern gives (`std::sregex_iterator`
with the pattern of the tokenizer). -/
def regex_tokenize (text : Str) : List TokenSpan :=
  regex_matches slices_regex (text.length + 1) 0 text

/-! ## Segmentation: the scan loop on the remaining text -/

theorem char_at_append (pre s : Str) (k : Nat) :
    char_at (pre ++ s) (pre.length + k) = char_at s k := by
  unfold char_at
  rw [List.getD_append_right _ _ _ _ (by omega)]
  congr 1
  omega

theorem char_at_cons_zero (c : Char) (cs : Str) : char_at (c :: cs) 0 = c := rfl

theorem char_at_cons_succ (c : Char) (cs : Str) (k : Nat) :
    char_at (c :: cs) (k + 1) = char_at cs k := by
  simp [char_at]

theorem digit_run_append (pre s : Str) (fuel len : Nat) (hf : s.length - len ≤ fuel) :
    digit_run (pre ++ s) pre.length fuel len
      = len + ((s.drop len).takeWhile isdigit).length := by
  induction fuel generalizing len with
  | zero =>
    have : s.drop len = [] := List.drop_eq_nil_of_le (by omega)
    simp [digit_run, this]
  | succ fuel ih =>
    unfold digit_run
    rw [char_at_append]
    by_cases hlen : len < s.length
    · rw [List.drop_eq_getElem_cons hlen, List.takeWhile_cons]
      have hc : char_at s len = s[len] := by
        simp [char_at, List.getD_eq_getElem?_getD, List.getElem?_eq_getElem hlen]
      rw [hc]
      by_cases hd : isdigit s[len] = true
      · have h1 : (pre.length + len < (pre ++ s).length && isdigit s[len]) = true := by
          simp [hd]; omega
        rw [if_pos h1, ih (len + 1) (by omega), if_pos hd]
        simp; omega
      · have h1 : ¬ ((pre.length + len < (pre ++ s).length && isdigit s[len]) = true) := by
          simp [hd]
        rw [if_neg h1, if_neg hd]
        simp
    · have : s.drop len = [] := List.drop_eq_nil_of_le (by omega)
      have h1 : ¬ ((pre.length + len < (pre ++ s).length && isdigit (char_at s len)) = true) := by
        simp; intro h; omega
      rw [if_neg h1, this]
      simp

theorem match_len_append (pre s : Str) : match_len (pre ++ s) pre.length = head_len s := by
  unfold match_len
  have h0 := char_at_append pre s 0
  have h1 := char_at_append pre s 1
  have h2 := char_at_append pre s 2
  rw [Nat.add_zero] at h0
  rw [h0, h1, h2, digit_run_append pre s _ 1 (by simp; omega)]
  match s with
  | [] => simp [head_len, char_at, isupper, isdigit, is_bond_char]
  | [c] =>
    simp [head_len, char_at_cons_zero]
  | [c, d] =>
    simp [head_len, char_at_cons_zero, char_at_cons_succ]
  | c :: d :: e :: r =>
    simp [head_len, char_at_cons_zero, char_at_cons_succ]

theorem length_takeWhile_le (p : Char → Bool) (l : Str) : (l.takeWhile p).length ≤ l.length := by
  induction l with
  | nil => simp
  | cons a l ih =>
    rw [List.takeWhile_cons]
    split_ifs
    · simp; omega
    · simp

theorem head_len_le (s : Str) : head_len s ≤ s.length := by
  match s with
  | [] => simp [head_len]
  | c :: cs =>
    have hd := length_takeWhile_le isdigit cs
    simp only [head_len, List.length_cons]
    split_ifs
    · split
      · split_ifs <;> simp
      · simp
    · omega
    · split
      · split_ifs <;> simp
      · simp

theorem substr_append (pre s : Str) (n : Nat) : substr (pre ++ s) pre.length n = s.take n := by
  simp [substr]

theorem pre_tokenize_loop_append (fuel : Nat) (pre s : Str) (tokens : List TokenSpan) :
    pre_tokenize_loop (pre ++ s) fuel pre.length tokens = tokens ++ scan fuel pre.length s := by
  induction fuel generalizing pre s tokens with
  | zero => simp [pre_tokenize_loop, scan]
  | succ fuel ih =>
    match s with
    | [] => simp [pre_tokenize_loop, scan]
    | c :: cs =>
      have hlt : pre.length < (pre ++ c :: cs).length := by simp
      simp only [pre_tokenize_loop, scan, if_pos hlt, match_len_append, substr_append]
      by_cases hpos : head_len (c :: cs) > 0
      · rw [if_pos hpos, if_pos hpos]
        have hle := head_len_le (c :: cs)
        have hsplit : pre ++ c :: cs
            = (pre ++ (c :: cs).take (head_len (c :: cs))) ++ (c :: cs).drop (head_len (c :: cs)) := by
          rw [List.append_assoc, List.take_append_drop]
        have hlen : (pre ++ (c :: cs).take (head_len (c :: cs))).length
            = pre.length + head_len (c :: cs) := by
          rw [List.length_append, List.length_take, Nat.min_eq_left hle]
        have := ih (pre ++ (c :: cs).take (head_len (c :: cs)))
          ((c :: cs).drop (head_len (c :: cs)))
          (tokens ++ [⟨(c :: cs).take (head_len (c :: cs)), pre.length,
            pre.length + head_len (c :: cs)⟩])
        rw [← hsplit, hlen] at this
        rw [this]
        simp
      · rw [if_neg hpos, if_neg hpos]
        have := ih (pre ++ [c]) cs tokens
        simp only [List.append_assoc, List.singleton_append, List.length_append,
          List.length_singleton] at this
        exact this

theorem scan_fuel (fuel off : Nat) (s : Str) (h : s.length ≤ fuel) :
    scan fuel off s = scan s.length off s := by
  induction fuel using Nat.strong_induction_on generalizing off s with
  | _ fuel ih =>
    match fuel, s with
    | 0, [] => rfl
    | _ + 1, [] => simp [scan]
    | fuel + 1, c :: cs =>
      simp only [List.length_cons, scan]
      have hle := head_len_le (c :: cs)
      simp only [List.length_cons] at h hle
      by_cases hpos : head_len (c :: cs) > 0
      · rw [if_pos hpos, if_pos hpos]
        have hl : ((c :: cs).drop (head_len (c :: cs))).length ≤ cs.length := by
          simp only [List.length_drop, List.length_cons]; omega
        rw [ih fuel (by omega) _ _ (by omega), ih cs.length (by omega) _ _ hl]
      · rw [if_neg hpos, if_neg hpos]
        rw [ih fuel (by omega) _ _ (by omega)]

/-- The bound on the iterations of the scan loop is never reached: with any larger bound the
loop returns the same spans as `pre_tokenize`. -/
theorem pre_tokenize_loop_fuel (text : Str) (fuel : Nat) (h : text.length ≤ fuel) :
    pre_tokenize_loop text fuel 0 [] = pre_tokenize text := by
  have h1 := pre_tokenize_loop_append fuel [] text []
  have h2 := pre_tokenize_loop_append text.length [] text []
  simp only [List.nil_append, List.length_nil] at h1 h2
  rw [pre_tokenize, h1, h2, scan_fuel fuel 0 text h]

theorem pre_tokenize_eq_scan (text : Str) : pre_tokenize text = scan text.length 0 text := by
  have h2 := pre_tokenize_loop_append text.length [] text []
  simpa [pre_tokenize] using h2

/-! ## Segmentation of well-formed SLICES strings -/

theorem isdigit_not_isupper (c : Char) (h : isdigit c = true) : isupper c = false := by
  simp only [isdigit, isupper, Bool.and_eq_true, decide_eq_true_eq, Bool.and_eq_false_iff,
    decide_eq_false_iff_not] at h ⊢
  omega

theorem is_bond_char_not_isupper (c : Char) (h : is_bond_char c = true) : isupper c = false := by
  simp only [is_bond_char, Bool.or_eq_true, beq_iff_eq] at h
  rcases h with (rfl | rfl) | rfl <;> decide

theorem is_bond_char_not_isdigit (c : Char) (h : is_bond_char c = true) : isdigit c = false := by
  simp only [is_bond_char, Bool.or_eq_true, beq_iff_eq] at h
  rcases h with (rfl | rfl) | rfl <;> decide

theorem takeWhile_append_stop (p : Char → Bool) (l r : Str) (hl : ∀ c ∈ l, p c = true)
    (hr : r = [] ∨ ∃ c r1, r = c :: r1 ∧ p c = false) : (l ++ r).takeWhile p = l := by
  induction l with
  | nil =>
    rcases hr with rfl | ⟨c, r1, rfl, hc⟩
    · rfl
    · simp [List.takeWhile_cons, hc]
  | cons a l ih =>
    have ha : p a = true := hl a (List.mem_cons_self a l)
    rw [List.cons_append, List.takeWhile_cons, if_pos ha,
      ih (fun c hc => hl c (List.mem_cons_of_mem a hc))]

/-- At a well-formed token that ends the text or is followed by a space, the scan loop
computes the length of the token. -/
theorem head_len_token (t r : Str) (ht : is_slices_token t = true)
    (hr : r = [] ∨ ∃ r1, r = ' ' :: r1) : head_len (t ++ r) = t.length ∧ 0 < t.length := by
  simp only [is_slices_token, Bool.or_eq_true] at ht
  rcases ht with (he | hd) | hb
  · match t, he with
    | [c], he =>
      simp only [is_element_symbol] at he
      rcases hr with rfl | ⟨r1, rfl⟩
      · simp [head_len, he]
      · simp only [List.singleton_append, head_len, he, if_true, List.length_singleton]
        exact ⟨by decide, by decide⟩
    | [c, d], he =>
      simp only [is_element_symbol, Bool.and_eq_true] at he
      simp [head_len, he.1, he.2]
  · match t, hd with
    | c :: cs, hd =>
      simp only [is_digit_run, List.isEmpty_cons, Bool.not_false, Bool.true_and, List.all_cons,
        Bool.and_eq_true, List.all_eq_true] at hd
      have hstop : r = [] ∨ ∃ c r1, r = c :: r1 ∧ isdigit c = false := by
        rcases hr with rfl | ⟨r1, rfl⟩
        · exact Or.inl rfl
        · exact Or.inr ⟨' ', r1, rfl, by decide⟩
      simp only [List.cons_append, head_len, isdigit_not_isupper c hd.1, hd.1, if_true,
        takeWhile_append_stop isdigit cs r hd.2 hstop, List.length_cons]
      constructor
      · simp; omega
      · omega
  · match t, hb with
    | [a, b, c], hb =>
      simp only [is_bond_triplet, Bool.and_eq_true] at hb
      simp [head_len, is_bond_char_not_isupper a hb.1.1, is_bond_char_not_isdigit a hb.1.1,
        hb.1.1, hb.1.2, hb.2]

theorem scan_all_nil (off : Nat) : scan_all off [] = [] := rfl

theorem scan_all_cons (off : Nat) (c : Char) (cs : Str) :
    scan_all off (c :: cs) =
      if head_len (c :: cs) > 0 then
        ⟨(c :: cs).take (head_len (c :: cs)), off, off + head_len (c :: cs)⟩ ::
          scan_all (off + head_len (c :: cs)) ((c :: cs).drop (head_len (c :: cs)))
      else scan_all (off + 1) cs := by
  have hle := head_len_le (c :: cs)
  simp only [List.length_cons] at hle
  simp only [scan_all, List.length_cons, scan]
  by_cases hpos : head_len (c :: cs) > 0
  · rw [if_pos hpos, if_pos hpos, scan_fuel cs.length]
    simp only [List.length_drop, List.length_cons]
    omega
  · rw [if_neg hpos, if_neg hpos]

theorem scan_all_token (off : Nat) (t r : Str) (ht : is_slices_token t = true)
    (hr : r = [] ∨ ∃ r1, r = ' ' :: r1) :
    scan_all off (t ++ r) = ⟨t, off, off + t.length⟩ :: scan_all (off + t.length) r := by
  obtain ⟨hlen, hpos⟩ := head_len_token t r ht hr
  match t, hpos with
  | c :: cs, _ =>
    rw [List.cons_append, scan_all_cons]
    rw [← List.cons_append, hlen, if_pos (by simp), List.take_left, List.drop_left]

theorem scan_all_space (off : Nat) (r : Str) : scan_all off (' ' :: r) = scan_all (off + 1) r := by
  rw [scan_all_cons]
  have : head_len (' ' :: r) = 0 := by
    have h1 : isupper ' ' = false := by decide
    have h2 : isdigit ' ' = false := by decide
    have h3 : is_bond_char ' ' = false := by decide
    simp only [head_len, h1, h2, h3]
    simp
    split <;> rfl
  rw [this]
  simp

theorem scan_all_join (ts : List Str) (hts : ∀ t ∈ ts, is_slices_token t = true) (off : Nat) :
    (scan_all off (join ts)).map (fun sp => sp.token) = ts := by
  induction ts generalizing off with
  | nil => rfl
  | cons t rest ih =>
    have ht := hts t (List.mem_cons_self t rest)
    match rest, ih, hts with
    | [], _, _ =>
      have h := scan_all_token off t [] ht (Or.inl rfl)
      rw [List.append_nil] at h
      simp [join, h, scan_all_nil]
    | u :: rest1, ih, hts =>
      have h := scan_all_token off t (' ' :: join (u :: rest1)) ht (Or.inr ⟨_, rfl⟩)
      rw [join, h, scan_all_space, List.map_cons,
        ih (fun x hx => hts x (List.mem_cons_of_mem t hx))]

theorem pre_tokenize_eq_scan_all (text : Str) : pre_tokenize text = scan_all 0 text :=
  pre_tokenize_eq_scan text

/-! ## Spans and encodings -/

theorem scan_all_spans (s : Str) (off : Nat) :
    (∀ sp ∈ scan_all off s, off ≤ sp.start ∧ sp.start < sp.end_ ∧ token_head_ok sp.token = true) ∧
      (scan_all off s).Pairwise (fun a b => a.end_ ≤ b.start ∧ a.start < b.start) := by
  generalize hn : s.length = n
  induction n using Nat.strong_induction_on generalizing s off with
  | _ n ih =>
    match s with
    | [] => simp [scan_all_nil]
    | c :: cs =>
      rw [scan_all_cons]
      have hle := head_len_le (c :: cs)
      simp only [List.length_cons] at hle hn
      by_cases hpos : head_len (c :: cs) > 0
      · rw [if_pos hpos]
        have hrec := ih ((c :: cs).drop (head_len (c :: cs))).length (by
          simp only [List.length_drop, List.length_cons]; omega)
          ((c :: cs).drop (head_len (c :: cs))) (off + head_len (c :: cs)) rfl
        have hhead : token_head_ok ((c :: cs).take (head_len (c :: cs))) = true := by
          obtain ⟨m, hm⟩ : ∃ m, head_len (c :: cs) = m + 1 := ⟨head_len (c :: cs) - 1, by omega⟩
          rw [hm, List.take_succ_cons]
          simp only [token_head_ok]
          by_contra hno
          simp only [Bool.or_eq_true, not_or, Bool.not_eq_true] at hno
          have : head_len (c :: cs) = 0 := by
            simp only [head_len, hno.1.1, hno.1.2, hno.2]
            simp
            split <;> rfl
          omega
        constructor
        · intro sp hsp
          rcases List.mem_cons.1 hsp with rfl | hsp
          · exact ⟨le_refl _, by simp only; omega, hhead⟩
          · have := hrec.1 sp hsp
            exact ⟨by omega, this.2⟩
        · refine List.pairwise_cons.2 ⟨?_, hrec.2⟩
          intro sp hsp
          have := hrec.1 sp hsp
          simp only
          omega
      · rw [if_neg hpos]
        have hrec := ih cs.length (by omega) cs (off + 1) rfl
        refine ⟨fun sp hsp => ?_, hrec.2⟩
        have := hrec.1 sp hsp
        exact ⟨by omega, this.2⟩

theorem pre_tokenize_pairwise (text : Str) :
    (pre_tokenize text).Pairwise (fun a b => a.end_ ≤ b.start ∧ a.start < b.start) := by
  rw [pre_tokenize_eq_scan_all]
  exact (scan_all_spans text 0).2

theorem pre_tokenize_token_head (text : Str) (sp : TokenSpan) (h : sp ∈ pre_tokenize text) :
    token_head_ok sp.token = true := by
  rw [pre_tokenize_eq_scan_all] at h
  exact ((scan_all_spans text 0).1 sp h).2.2

theorem token_to_id_eq (t : SLICESTokenizer) (token : Str) :
    token_to_id t token = (find t.vocab_ token).getD 0 := by
  unfold token_to_id unk_token_id_
  cases find t.vocab_ token <;> rfl

theorem id_to_token_eq (t : SLICESTokenizer) (id : Int) :
    id_to_token t id = (find t.id_to_token_ id).getD t.unk_token_ := by
  unfold id_to_token
  cases find t.id_to_token_ id <;> rfl

theorem encode_loop_eq (t : SLICESTokenizer) (spans : List TokenSpan) (e : Encoding) :
    encode_loop t spans e =
      ⟨e.tokens ++ spans.map (fun sp => sp.token),
        e.ids ++ spans.map (fun sp => token_to_id t sp.token), e.spans ++ spans⟩ := by
  induction spans generalizing e with
  | nil => simp [encode_loop]
  | cons sp rest ih =>
    rw [encode_loop, ih]
    simp only [List.map_cons, List.append_assoc, List.singleton_append, Encoding.mk.injEq,
      List.append_cancel_left_eq, List.cons.injEq, and_true, true_and]
    unfold token_to_id
    cases find t.vocab_ sp.token <;> rfl

theorem encode_eq (t : SLICESTokenizer) (text : Str) :
    encode t text =
      ⟨(pre_tokenize text).map (fun sp => sp.token),
        (pre_tokenize text).map (fun sp => token_to_id t sp.token), pre_tokenize text⟩ := by
  rw [encode, encode_loop_eq]
  simp

theorem decode_eq (t : SLICESTokenizer) (ids : List Int) :
    decode t ids = join (ids.map (id_to_token t)) := by
  have h : ∀ (l : List Int) (init : List Str),
      l.foldl (fun tokens id =>
        match find t.id_to_token_ id with
        | some token => tokens ++ [token]
        | none => tokens ++ [t.unk_token_]) init = init ++ l.map (id_to_token t) := by
    intro l
    induction l with
    | nil => simp
    | cons id rest ih =>
      intro init
      rw [List.foldl_cons, ih]
      unfold id_to_token
      cases h : find t.id_to_token_ id <;> simp [h]
  simp only [decode, h, List.nil_append]

/-! ## Association lists as hash maps -/

section maps

variable {K V : Type} [DecidableEq K]

theorem find_append (m1 m2 : List (K × V)) (q : K) :
    find (m1 ++ m2) q = (find m1 q).orElse (fun _ => find m2 q) := by
  induction m1 with
  | nil => rfl
  | cons p m1 ih =>
    obtain ⟨k, v⟩ := p
    simp only [List.cons_append, find]
    split_ifs
    · rfl
    · exact ih

theorem find_eq_none_iff (m : List (K × V)) (q : K) :
    find m q = none ↔ q ∉ m.map Prod.fst := by
  induction m with
  | nil => simp [find]
  | cons p m ih =>
    obtain ⟨k, v⟩ := p
    simp only [find, List.map_cons, List.mem_cons, not_or]
    split_ifs with h
    · simp [h]
    · rw [ih]
      exact ⟨fun hq => ⟨fun e => h e.symm, hq⟩, fun hq => hq.2⟩

theorem mem_of_find_eq_some (m : List (K × V)) (q : K) (v : V) (h : find m q = some v) :
    (q, v) ∈ m := by
  induction m with
  | nil => simp [find] at h
  | cons p m ih =>
    obtain ⟨k, w⟩ := p
    simp only [find] at h
    split_ifs at h with hk
    · cases h
      subst hk
      exact List.mem_cons_self _ _
    · exact List.mem_cons_of_mem _ (ih h)

theorem find_eq_some_of_mem (m : List (K × V)) (q : K) (v : V)
    (hnd : (m.map Prod.fst).Nodup) (h : (q, v) ∈ m) : find m q = some v := by
  induction m with
  | nil => simp at h
  | cons p m ih =>
    obtain ⟨k, w⟩ := p
    simp only [List.map_cons, List.nodup_cons] at hnd
    simp only [find]
    rcases List.mem_cons.1 h with e | h1
    · cases e
      simp
    · have hk : k ≠ q := by
        rintro rfl
        exact hnd.1 (List.mem_map.2 ⟨(k, v), h1, rfl⟩)
      rw [if_neg hk]
      exact ih hnd.2 h1

theorem assign_of_find_eq_none (m : List (K × V)) (k : K) (v : V) (h : find m k = none) :
    assign m k v = m ++ [(k, v)] := by
  induction m with
  | nil => rfl
  | cons p m ih =>
    obtain ⟨k1, v1⟩ := p
    simp only [find] at h
    split_ifs at h with hk
    simp only [assign, if_neg hk, ih h, List.cons_append]

theorem find_assign (m : List (K × V)) (k q : K) (v : V) :
    find (assign m k v) q = if k = q then some v else find m q := by
  induction m with
  | nil => simp [assign, find]
  | cons p m ih =>
    obtain ⟨k1, v1⟩ := p
    simp only [assign]
    by_cases hk : k1 = k
    · subst hk
      simp only [if_true, find]
      split_ifs <;> rfl
    · simp only [if_neg hk, find, ih]
      by_cases h1 : k1 = q
      · have : ¬ k = q := fun e => hk (h1.trans e.symm)
        simp [h1, this]
      · simp [h1]

/-- In a list of entries whose values are pairwise distinct, the swapped list finds the key
of every entry from its value. -/
theorem find_swap [DecidableEq V] (m : List (K × V)) (q : K) (v : V)
    (hnd : (m.map Prod.snd).Nodup) (h : find m q = some v) :
    find (m.map Prod.swap) v = some q := by
  induction m with
  | nil => simp [find] at h
  | cons p m ih =>
    obtain ⟨k, w⟩ := p
    simp only [List.map_cons, List.nodup_cons] at hnd
    simp only [find] at h
    simp only [List.map_cons, Prod.swap_prod_mk, find]
    split_ifs at h with hk
    · cases h
      simp [hk]
    · have hmem := mem_of_find_eq_some m q v h
      have hw : w ≠ v := by
        rintro rfl
        exact hnd.1 (List.mem_map.2 ⟨(q, w), hmem, rfl⟩)
      rw [if_neg hw]
      exact ih hnd.2 h

end maps

/-! ## Counting the tokens of a corpus -/

theorem find_increment (m : List (Str × Nat)) (tok q : Str) :
    find (increment m tok) q =
      if tok = q then some ((find m tok).getD 0 + 1) else find m q := by
  induction m with
  | nil => simp [increment, find]
  | cons p m ih =>
    obtain ⟨k, n⟩ := p
    simp only [increment]
    by_cases hk : k = tok
    · subst hk
      simp only [if_true, find]
      split_ifs <;> simp
    · simp only [if_neg hk, find, ih]
      by_cases h1 : k = q
      · have : ¬ tok = q := fun e => hk (h1.trans e.symm)
        simp [h1, this]
      · simp [h1]

theorem keys_increment (m : List (Str × Nat)) (tok : Str) :
    (increment m tok).map Prod.fst =
      if tok ∈ m.map Prod.fst then m.map Prod.fst else m.map Prod.fst ++ [tok] := by
  induction m with
  | nil => simp [increment]
  | cons p m ih =>
    obtain ⟨k, n⟩ := p
    simp only [increment]
    by_cases hk : k = tok
    · subst hk
      simp
    · have hk1 : ¬ tok = k := fun e => hk e.symm
      simp only [if_neg hk, List.map_cons, ih, List.mem_cons, hk1, false_or]
      split_ifs <;> simp

theorem nodup_keys_increment (m : List (Str × Nat)) (tok : Str)
    (h : (m.map Prod.fst).Nodup) : ((increment m tok).map Prod.fst).Nodup := by
  rw [keys_increment]
  split_ifs with hin
  · exact h
  · exact List.nodup_append.2 ⟨h, List.nodup_singleton tok, by
      intro a ha hb
      rw [List.mem_singleton] at hb
      exact hin (hb ▸ ha)⟩

theorem nodup_keys_foldl_increment (stream : List Str) (m : List (Str × Nat))
    (h : (m.map Prod.fst).Nodup) : ((stream.foldl increment m).map Prod.fst).Nodup := by
  induction stream generalizing m with
  | nil => exact h
  | cons tok rest ih => exact ih _ (nodup_keys_increment m tok h)

theorem find_foldl_increment (stream : List Str) (m : List (Str × Nat)) (q : Str) :
    find (stream.foldl increment m) q =
      if stream.count q = 0 then find m q else some ((find m q).getD 0 + stream.count q) := by
  induction stream generalizing m with
  | nil => simp
  | cons tok rest ih =>
    rw [List.foldl_cons, ih, find_increment, List.count_cons]
    by_cases hq : tok = q
    · subst hq
      simp only [if_true, beq_self_eq_true, Option.getD_some]
      by_cases h1 : List.count tok rest = 0
      · simp [h1]
      · simp [h1]
        omega
    · have hb : (tok == q) = false := by simpa using hq
      simp [hq, hb]

theorem count_tokens_eq (training_data : List Str) :
    count_tokens training_data = (corpus_tokens training_data).foldl increment [] := by
  have h : ∀ (m : List (Str × Nat)),
      training_data.foldl
        (fun counts text =>
          (pre_tokenize text).foldl (fun c span => increment c span.token) counts) m
        = (corpus_tokens training_data).foldl increment m := by
    induction training_data with
    | nil => intro m; rfl
    | cons text rest ih =>
      intro m
      rw [List.foldl_cons, ih, corpus_tokens, List.foldl_append, List.foldl_map]
  exact h []

/-- The counter of a token is the number of its occurrences in the corpus, and a token that
does not occur has no entry. -/
theorem find_count_tokens (training_data : List Str) (q : Str) :
    find (count_tokens training_data) q =
      if (corpus_tokens training_data).count q = 0 then none
      else some ((corpus_tokens training_data).count q) := by
  rw [count_tokens_eq, find_foldl_increment]
  simp [find]

theorem nodup_keys_count_tokens (training_data : List Str) :
    ((count_tokens training_data).map Prod.fst).Nodup := by
  rw [count_tokens_eq]
  exact nodup_keys_foldl_increment _ [] (by simp)

theorem mem_count_tokens_iff (training_data : List Str) (p : Str × Nat) :
    p ∈ count_tokens training_data ↔
      p.2 = (corpus_tokens training_data).count p.1 ∧ p.2 ≠ 0 := by
  obtain ⟨tok, n⟩ := p
  constructor
  · intro h
    have := find_eq_some_of_mem _ tok n (nodup_keys_count_tokens training_data) h
    rw [find_count_tokens] at this
    split_ifs at this with h0
    simp only [Option.some.injEq] at this
    simp only
    omega
  · rintro ⟨h1, h2⟩
    simp only at h1 h2
    apply mem_of_find_eq_some
    rw [find_count_tokens, if_neg (by omega), h1]

theorem mem_keys_count_tokens_iff (training_data : List Str) (tok : Str) :
    tok ∈ (count_tokens training_data).map Prod.fst ↔ tok ∈ corpus_tokens training_data := by
  rw [← not_iff_not, ← find_eq_none_iff, find_count_tokens, ← List.count_eq_zero]
  split_ifs with h <;> simp [h]

/-- The number of entries of `token_counts` is the number of distinct tokens of the corpus. -/
theorem length_count_tokens (training_data : List Str) :
    (count_tokens training_data).length = (corpus_tokens training_data).dedup.length := by
  have hp : ((count_tokens training_data).map Prod.fst).Perm
      (corpus_tokens training_data).dedup :=
    (List.perm_ext_iff_of_nodup (nodup_keys_count_tokens training_data)
      (List.nodup_dedup _)).2 (fun a => by
        rw [mem_keys_count_tokens_iff, List.mem_dedup])
  have := hp.length_eq
  simpa using this

theorem corpus_tokens_head (training_data : List Str) (tok : Str)
    (h : tok ∈ corpus_tokens training_data) : token_head_ok tok = true := by
  induction training_data with
  | nil => simp [corpus_tokens] at h
  | cons text rest ih =>
    rw [corpus_tokens, List.mem_append] at h
    rcases h with h | h
    · obtain ⟨sp, hsp, rfl⟩ := List.mem_map.1 h
      exact pre_tokenize_token_head text sp hsp
    · exact ih h

/-! ## Training -/

theorem insert_special_tokens_cleared (t : SLICESTokenizer) :
    insert_special_tokens { t with vocab_ := [], id_to_token_ := [] } =
      { t with vocab_ := special_vocab, id_to_token_ := special_vocab.map Prod.swap } := by
  rfl

theorem find_special_vocab_of_head (tok : Str) (h : token_head_ok tok = true) :
    find special_vocab tok = none := by
  match tok, h with
  | c :: cs, h =>
    have hc : ¬ ('[' = c) := by
      rintro rfl
      simp only [token_head_ok] at h
      exact absurd h (by decide)
    have e : special_vocab =
        [('[' :: "UNK]".toList, 0), ('[' :: "PAD]".toList, 1), ('[' :: "CLS]".toList, 2),
          ('[' :: "SEP]".toList, 3), ('[' :: "MASK]".toList, 4), ('[' :: "EOS]".toList, 5)] := by
      rfl
    rw [e]
    simp [find, hc]

theorem find_special_ids_ge (j : Int) (h : 6 ≤ j) :
    find (special_vocab.map Prod.swap) j = none := by
  have e : special_vocab.map Prod.swap = [(0, "[UNK]".toList), (1, "[PAD]".toList),
      (2, "[CLS]".toList), (3, "[SEP]".toList), (4, "[MASK]".toList), (5, "[EOS]".toList)] := by
    rfl
  rw [e]
  simp only [find]
  repeat rw [if_neg (by omega)]

theorem find_learned_eq_none_iff (k : Int) (ks : List Str) (q : Str) :
    find (learned k ks) q = none ↔ q ∉ ks := by
  induction ks generalizing k with
  | nil => simp [learned, find]
  | cons tok rest ih =>
    simp only [learned, find, List.mem_cons, not_or]
    split_ifs with h
    · simp [h]
    · rw [ih]
      exact ⟨fun hq => ⟨fun e => h e.symm, hq⟩, fun hq => hq.2⟩

theorem le_of_find_learned (k : Int) (ks : List Str) (q : Str) (j : Int)
    (h : find (learned k ks) q = some j) : k ≤ j := by
  induction ks generalizing k with
  | nil => simp [learned, find] at h
  | cons tok rest ih =>
    simp only [learned, find] at h
    split_ifs at h with hk
    · cases h
      exact le_refl _
    · have := ih (k + 1) h
      omega

theorem learned_values (k : Int) (ks : List Str) :
    (∀ j ∈ (learned k ks).map Prod.snd, k ≤ j) ∧ ((learned k ks).map Prod.snd).Nodup := by
  induction ks generalizing k with
  | nil => simp [learned]
  | cons tok rest ih =>
    obtain ⟨h1, h2⟩ := ih (k + 1)
    simp only [learned, List.map_cons, List.mem_cons, List.nodup_cons]
    refine ⟨?_, ?_, h2⟩
    · rintro j (rfl | hj)
      · exact le_refl _
      · have := h1 j hj
        omega
    · intro hk
      have := h1 k hk
      omega

theorem length_learned (k : Int) (ks : List Str) : (learned k ks).length = ks.length := by
  induction ks generalizing k with
  | nil => rfl
  | cons tok rest ih => simp [learned, ih]

/-- The last loop of `train_from_iterator` in closed form: when the listed tokens are pairwise
distinct and new to `vocab_`, and the ids from `token_id` on are unused, the loop appends the
first `vocab_size_ - token_id` tokens with consecutive ids. -/
theorem assign_ids_eq (l : List (Str × Nat)) (k : Int) (t : SLICESTokenizer)
    (hnd : (l.map Prod.fst).Nodup)
    (hfresh : ∀ tok ∈ l.map Prod.fst, find t.vocab_ tok = none)
    (hid : ∀ j, k ≤ j → find t.id_to_token_ j = none) :
    assign_ids l k t =
      { t with
        vocab_ := t.vocab_ ++ learned k ((l.map Prod.fst).take (t.vocab_size_ - k).toNat),
        id_to_token_ := t.id_to_token_ ++
          (learned k ((l.map Prod.fst).take (t.vocab_size_ - k).toNat)).map Prod.swap } := by
  induction l generalizing k t with
  | nil => simp [assign_ids, learned]
  | cons p rest ih =>
    obtain ⟨tok, c⟩ := p
    simp only [List.map_cons, List.nodup_cons, List.mem_cons] at hnd hfresh
    simp only [assign_ids, List.map_cons]
    by_cases hcap : k ≥ t.vocab_size_
    · have h0 : (t.vocab_size_ - k).toNat = 0 := by omega
      rw [if_pos hcap, h0]
      simp [learned]
    · have hn : (t.vocab_size_ - k).toNat = (t.vocab_size_ - (k + 1)).toNat + 1 := by omega
      have hf : find t.vocab_ tok = none := hfresh tok (Or.inl rfl)
      rw [if_neg hcap, if_pos hf, assign_of_find_eq_none _ _ _ hf,
        assign_of_find_eq_none _ _ _ (hid k (le_refl k)), hn, List.take_succ_cons, learned]
      rw [ih (k + 1) _ hnd.2]
      · simp
      · intro tok1 h1
        rw [find_append, hfresh tok1 (Or.inr h1)]
        have hne : ¬ tok = tok1 := fun e => hnd.1 (e ▸ h1)
        simp [find, hne]
      · intro j hj
        rw [find_append, hid j (by omega)]
        have hne : ¬ k = j := by omega
        simp [find, hne]

theorem nodup_keys_sorted_tokens (L : StdLib) (training_data : List Str) :
    ((sorted_tokens L training_data).map Prod.fst).Nodup :=
  ((((L.sort_perm _).trans (L.iteration_perm _)).map Prod.fst).nodup_iff).2
    (nodup_keys_count_tokens training_data)

theorem mem_sorted_tokens_iff (L : StdLib) (training_data : List Str) (p : Str × Nat) :
    p ∈ sorted_tokens L training_data ↔
      p.2 = (corpus_tokens training_data).count p.1 ∧ p.2 ≠ 0 := by
  rw [← mem_count_tokens_iff]
  exact ((L.sort_perm _).trans (L.iteration_perm _)).mem_iff

theorem mem_keys_sorted_tokens_iff (L : StdLib) (training_data : List Str) (tok : Str) :
    tok ∈ (sorted_tokens L training_data).map Prod.fst ↔ tok ∈ corpus_tokens training_data := by
  rw [← mem_keys_count_tokens_iff]
  exact (((L.sort_perm _).trans (L.iteration_perm _)).map Prod.fst).mem_iff

theorem length_sorted_tokens (L : StdLib) (training_data : List Str) :
    (sorted_tokens L training_data).length = (corpus_tokens training_data).dedup.length := by
  rw [← length_count_tokens]
  exact ((L.sort_perm _).trans (L.iteration_perm _)).length_eq

/-- The tokens that training learns, in id order. -/
theorem train_from_iterator_eq (L : StdLib) (t : SLICESTokenizer) (training_data : List Str)
    (vocab_size : Int) :
    train_from_iterator L t training_data vocab_size =
      { t with
        vocab_size_ := vocab_size,
        vocab_ := special_vocab ++
          learned 6 (((sorted_tokens L training_data).map Prod.fst).take (vocab_size - 6).toNat),
        id_to_token_ := (special_vocab ++
          learned 6 (((sorted_tokens L training_data).map Prod.fst).take
            (vocab_size - 6).toNat)).map Prod.swap } := by
  unfold train_from_iterator
  simp only
  have h := insert_special_tokens_cleared { t with vocab_size_ := vocab_size }
  simp only at h
  rw [h, assign_ids_eq _ _ _ (nodup_keys_sorted_tokens L training_data)]
  · simp [special_tokens_]
  · intro tok htok
    exact find_special_vocab_of_head tok
      (corpus_tokens_head training_data tok ((mem_keys_sorted_tokens_iff L _ tok).1 htok))
  · intro j hj
    exact find_special_ids_ge j (by simpa [special_tokens_] using hj)

/-! ## The order of the learned ids -/

theorem sublist_pair_of_sorted (l : List (Str × Nat))
    (hs : l.Pairwise (fun p q => q.2 ≤ p.2)) (x y : Str × Nat) (hx : x ∈ l) (hy : y ∈ l)
    (hlt : y.2 < x.2) : [x, y].Sublist l := by
  induction l with
  | nil => simp at hx
  | cons z rest ih =>
    obtain ⟨hz, hrest⟩ := List.pairwise_cons.1 hs
    rcases List.mem_cons.1 hx with rfl | hx1
    · rcases List.mem_cons.1 hy with rfl | hy1
      · omega
      · exact List.Sublist.cons₂ _ (List.singleton_sublist.2 hy1)
    · rcases List.mem_cons.1 hy with rfl | hy1
      · have := hz x hx1
        omega
      · exact List.Sublist.cons _ (ih hrest hx1 hy1)

/-- Consecutive ids respect the order of the list, also when the list is cut short. -/
theorem learned_order (k : Int) (ks : List Str) (n : Nat) (a b : Str) (hnd : ks.Nodup)
    (hsub : [a, b].Sublist ks) (j : Int) (hb : find (learned k (ks.take n)) b = some j) :
    ∃ i, find (learned k (ks.take n)) a = some i ∧ i < j := by
  induction ks generalizing k n with
  | nil => simp at hsub
  | cons x rest ih =>
    obtain ⟨hx, hrest⟩ := List.nodup_cons.1 hnd
    match n with
    | 0 => simp [learned, find] at hb
    | n + 1 =>
      rw [List.take_succ_cons, learned] at hb ⊢
      simp only [find] at hb ⊢
      rcases List.sublist_cons_iff.1 hsub with h | ⟨r, hr, h⟩
      · have ha : a ∈ rest := h.subset (by simp)
        have hbm : b ∈ rest := h.subset (by simp)
        have hxa : ¬ x = a := fun e => hx (e ▸ ha)
        have hxb : ¬ x = b := fun e => hx (e ▸ hbm)
        rw [if_neg hxb] at hb
        rw [if_neg hxa]
        exact ih (k + 1) n hrest h hb
      · obtain ⟨rfl, rfl⟩ := List.cons.inj hr
        have hbm : b ∈ rest := List.singleton_sublist.1 h
        have hxb : ¬ a = b := fun e => hx (e ▸ hbm)
        rw [if_neg hxb] at hb
        have := le_of_find_learned _ _ _ _ hb
        exact ⟨k, by simp, by omega⟩

theorem find_train_vocab_of_head (L : StdLib) (t : SLICESTokenizer) (training_data : List Str)
    (vocab_size : Int) (tok : Str) (h : find special_vocab tok = none) :
    find (train_from_iterator L t training_data vocab_size).vocab_ tok =
      find (learned 6 (((sorted_tokens L training_data).map Prod.fst).take
        (vocab_size - 6).toNat)) tok := by
  rw [train_from_iterator_eq]
  simp only
  rw [find_append, h]
  rfl

/-- Ids follow the order of `sorted_tokens`: a token listed before a learned token is learned
too, with a smaller id. -/
theorem train_order (L : StdLib) (t : SLICESTokenizer) (training_data : List Str)
    (vocab_size : Int) (a b : Str)
    (hsub : [a, b].Sublist ((sorted_tokens L training_data).map Prod.fst))
    (hin : in_vocab (train_from_iterator L t training_data vocab_size) b = true) :
    in_vocab (train_from_iterator L t training_data vocab_size) a = true ∧
      token_to_id (train_from_iterator L t training_data vocab_size) a <
        token_to_id (train_from_iterator L t training_data vocab_size) b := by
  have hsa : find special_vocab a = none :=
    find_special_vocab_of_head a (corpus_tokens_head training_data a
      ((mem_keys_sorted_tokens_iff L _ a).1 (hsub.subset (by simp))))
  have hsb : find special_vocab b = none :=
    find_special_vocab_of_head b (corpus_tokens_head training_data b
      ((mem_keys_sorted_tokens_iff L _ b).1 (hsub.subset (by simp))))
  simp only [in_vocab, token_to_id_eq, find_train_vocab_of_head L t training_data vocab_size a hsa,
    find_train_vocab_of_head L t training_data vocab_size b hsb] at hin ⊢
  obtain ⟨j, hj⟩ := Option.isSome_iff_exists.1 hin
  obtain ⟨i, hi, hij⟩ := learned_order 6 _ (vocab_size - 6).toNat a b
    (nodup_keys_sorted_tokens L training_data) hsub j hj
  rw [hi, hj]
  exact ⟨rfl, hij⟩

/-! ## Persistence -/

theorem int_cast_of_range (n : Int) (h1 : -2147483648 ≤ n) (h2 : n ≤ 2147483647) :
    int_cast n = n := by
  unfold int_cast
  omega

theorem obj_set_perm {V : Type} (m : List (Str × V)) (k : Str) (v : V)
    (h : k ∉ m.map Prod.fst) : (obj_set m k v).Perm ((k, v) :: m) := by
  induction m with
  | nil => exact List.Perm.refl _
  | cons p rest ih =>
    obtain ⟨k1, v1⟩ := p
    simp only [List.map_cons, List.mem_cons, not_or] at h
    have hk : ¬ k1 = k := fun e => h.1 e.symm
    simp only [obj_set, if_neg hk]
    split_ifs
    · exact List.Perm.refl _
    · exact ((ih h.2).cons (k1, v1)).trans (List.Perm.swap _ _ _)

theorem obj_set_map {V W : Type} (f : V → W) (m : List (Str × V)) (k : Str) (v : V) :
    obj_set (m.map (fun p => (p.1, f p.2))) k (f v) =
      (obj_set m k v).map (fun p => (p.1, f p.2)) := by
  induction m with
  | nil => rfl
  | cons p rest ih =>
    obtain ⟨k1, v1⟩ := p
    simp only [List.map_cons, obj_set]
    split_ifs
    · rfl
    · rfl
    · rw [ih]
      rfl

theorem foldl_obj_set_map {V W : Type} (f : V → W) (l m : List (Str × V)) :
    l.foldl (fun o p => obj_set o p.1 (f p.2)) (m.map (fun p => (p.1, f p.2))) =
      (l.foldl (fun o p => obj_set o p.1 p.2) m).map (fun p => (p.1, f p.2)) := by
  induction l generalizing m with
  | nil => rfl
  | cons p rest ih =>
    rw [List.foldl_cons, List.foldl_cons, obj_set_map, ih]

theorem foldl_obj_set_perm {V : Type} (l m : List (Str × V))
    (hnd : ((m ++ l).map Prod.fst).Nodup) :
    (l.foldl (fun o p => obj_set o p.1 p.2) m).Perm (m ++ l) := by
  induction l generalizing m with
  | nil => simp
  | cons p rest ih =>
    rw [List.foldl_cons]
    have hp : (obj_set m p.1 p.2).Perm (m ++ [p]) := by
      refine (obj_set_perm m p.1 p.2 ?_).trans ?_
      · intro hin
        rw [List.map_append, List.nodup_append] at hnd
        have hp1 : p.1 ∈ (p :: rest).map Prod.fst := List.mem_map.2 ⟨p, List.mem_cons_self _ _, rfl⟩
        exact hnd.2.2 hin hp1
      · exact (List.perm_append_comm : ([p] ++ m).Perm (m ++ [p]))
    have hnd1 : ((obj_set m p.1 p.2 ++ rest).map Prod.fst).Nodup := by
      have : ((obj_set m p.1 p.2 ++ rest).map Prod.fst).Perm ((m ++ p :: rest).map Prod.fst) := by
        apply List.Perm.map
        have := hp.append_right rest
        simpa using this
      exact this.nodup_iff.2 hnd
    refine (ih _ hnd1).trans ?_
    have := hp.append_right rest
    simpa using this

/-- The loop of `load` on integer-valued members with fresh, pairwise distinct keys and ids in
the range of `int`: every member is appended to both maps. -/
theorem load_vocab_loop_eq (m : List (Str × Int)) (t : SLICESTokenizer)
    (hk : ((t.vocab_ ++ m).map Prod.fst).Nodup)
    (hv : ((t.vocab_ ++ m).map Prod.snd).Nodup)
    (hinv : t.id_to_token_ = t.vocab_.map Prod.swap)
    (hr : ∀ p ∈ m, -2147483648 ≤ p.2 ∧ p.2 ≤ 2147483647) :
    load_vocab_loop (m.map (fun p => (p.1, Json.number p.2))) t =
      LoadResult.returned
        { t with vocab_ := t.vocab_ ++ m, id_to_token_ := (t.vocab_ ++ m).map Prod.swap } := by
  induction m generalizing t with
  | nil =>
    simp only [List.map_nil, load_vocab_loop, List.append_nil, ← hinv]
  | cons p rest ih =>
    obtain ⟨tok, id⟩ := p
    have hid := hr (tok, id) (List.mem_cons_self _ _)
    simp only [List.map_cons, load_vocab_loop, Json.to_int, int_cast_of_range id hid.1 hid.2]
    have hf1 : find t.vocab_ tok = none := by
      rw [find_eq_none_iff]
      intro hin
      rw [List.map_append, List.nodup_append] at hk
      have hp1 : tok ∈ ((tok, id) :: rest).map Prod.fst :=
        List.mem_map.2 ⟨(tok, id), List.mem_cons_self _ _, rfl⟩
      exact hk.2.2 hin hp1
    have hf2 : find t.id_to_token_ id = none := by
      rw [find_eq_none_iff, hinv]
      intro hin
      rw [List.map_append, List.nodup_append] at hv
      have hp1 : id ∈ ((tok, id) :: rest).map Prod.snd :=
        List.mem_map.2 ⟨(tok, id), List.mem_cons_self _ _, rfl⟩
      have hp2 : id ∈ t.vocab_.map Prod.snd := by
        obtain ⟨q, hq, hq1⟩ := List.mem_map.1 hin
        obtain ⟨r, hr1, rfl⟩ := List.mem_map.1 hq
        exact List.mem_map.2 ⟨r, hr1, hq1⟩
      exact hv.2.2 hp2 hp1
    rw [assign_of_find_eq_none _ _ _ hf1, assign_of_find_eq_none _ _ _ hf2]
    rw [ih]
    · simp
    · simpa using hk
    · simpa using hv
    · simp [hinv]
    · intro q hq
      exact hr q (List.mem_cons_of_mem _ hq)

theorem keys_learned (k : Int) (ks : List Str) : (learned k ks).map Prod.fst = ks := by
  induction ks generalizing k with
  | nil => rfl
  | cons tok rest ih => simp [learned, ih]

theorem learned_lt (k : Int) (ks : List Str) :
    ∀ j ∈ (learned k ks).map Prod.snd, j < k + ks.length := by
  induction ks generalizing k with
  | nil => simp [learned]
  | cons tok rest ih =>
    simp only [learned, List.map_cons, List.mem_cons, List.length_cons]
    rintro j (rfl | hj)
    · push_cast
      omega
    · have := ih (k + 1) j hj
      push_cast
      omega

/-- The maps of a trained tokenizer: tokens pairwise distinct, ids pairwise distinct, ids
between 0 and the larger of 6 and the capacity, and `id_to_token_` the mirror image of
`vocab_`. -/
theorem train_well_formed (L : StdLib) (t : SLICESTokenizer) (training_data : List Str)
    (vocab_size : Int) :
    ((train_from_iterator L t training_data vocab_size).vocab_.map Prod.fst).Nodup ∧
      ((train_from_iterator L t training_data vocab_size).vocab_.map Prod.snd).Nodup ∧
      (∀ j ∈ (train_from_iterator L t training_data vocab_size).vocab_.map Prod.snd,
        0 ≤ j ∧ j < max 6 vocab_size) ∧
      (train_from_iterator L t training_data vocab_size).id_to_token_ =
        (train_from_iterator L t training_data vocab_size).vocab_.map Prod.swap := by
  rw [train_from_iterator_eq]
  simp only
  have hs : special_vocab.map Prod.snd = [0, 1, 2, 3, 4, 5] := rfl
  obtain ⟨hge, hnd⟩ := learned_values 6
    (((sorted_tokens L training_data).map Prod.fst).take (vocab_size - 6).toNat)
  have hlt := learned_lt 6
    (((sorted_tokens L training_data).map Prod.fst).take (vocab_size - 6).toNat)
  refine ⟨?_, ?_, ?_, trivial⟩
  · rw [List.map_append, keys_learned, List.nodup_append]
    refine ⟨by decide, (nodup_keys_sorted_tokens L training_data).sublist (List.take_sublist _ _),
      ?_⟩
    intro a ha hb
    have hmem := (mem_keys_sorted_tokens_iff L training_data a).1 (List.mem_of_mem_take hb)
    have := find_special_vocab_of_head a (corpus_tokens_head training_data a hmem)
    rw [find_eq_none_iff] at this
    exact this ha
  · rw [List.map_append, List.nodup_append]
    refine ⟨by decide, hnd, ?_⟩
    intro a ha hb
    have h6 := hge a hb
    rw [hs] at ha
    simp only [List.mem_cons, List.mem_singleton, List.not_mem_nil, or_false] at ha
    omega
  · intro j hj
    rw [List.map_append, List.mem_append] at hj
    rcases hj with hj | hj
    · rw [hs] at hj
      simp only [List.mem_cons, List.mem_singleton, List.not_mem_nil, or_false] at hj
      omega
    · have h1 := hge j hj
      have h2 := hlt j hj
      have h3 : (((sorted_tokens L training_data).map Prod.fst).take
          (vocab_size - 6).toNat).length ≤ (vocab_size - 6).toNat := by
        rw [List.length_take]
        exact Nat.min_le_left _ _
      omega

theorem find_eq_of_perm {K V : Type} [DecidableEq K] (m1 m2 : List (K × V))
    (hp : m1.Perm m2) (hnd : (m2.map Prod.fst).Nodup) (q : K) : find m1 q = find m2 q := by
  have hnd1 : (m1.map Prod.fst).Nodup := (hp.map Prod.fst).nodup_iff.2 hnd
  cases h : find m2 q with
  | none =>
    rw [find_eq_none_iff] at h ⊢
    exact fun hin => h ((hp.map Prod.fst).mem_iff.1 hin)
  | some v =>
    exact find_eq_some_of_mem m1 q v hnd1 (hp.mem_iff.2 (mem_of_find_eq_some m2 q v h))

/-- What `load` does with a record of `save`: when the maps of the saved tokenizer are
well formed, it returns normally, and its maps hold the members of the `vocab` object. -/
theorem load_save_eq (L : StdLib) (l t : SLICESTokenizer)
    (hk : (t.vocab_.map Prod.fst).Nodup) (hv : (t.vocab_.map Prod.snd).Nodup)
    (hr : ∀ j ∈ t.vocab_.map Prod.snd, -2147483648 ≤ j ∧ j ≤ 2147483647)
    (hc : -2147483648 ≤ t.vocab_size_ ∧ t.vocab_size_ ≤ 2147483647) :
    load L l (save t) =
      LoadResult.returned
        { l with
          vocab_size_ := t.vocab_size_,
          unk_token_ := t.unk_token_,
          vocab_ := t.vocab_.foldl (fun o p => obj_set o p.1 p.2) [],
          id_to_token_ := (t.vocab_.foldl (fun o p => obj_set o p.1 p.2) []).map Prod.swap,
          slices_pattern_ := slices_pattern_text } := by
  have hperm : (t.vocab_.foldl (fun o p => obj_set o p.1 p.2) []).Perm t.vocab_ := by
    have := foldl_obj_set_perm t.vocab_ [] (by simpa using hk)
    simpa using this
  have hsave : save t = Json.object
      [("model_type".toList, Json.string "SLICESTokenizer".toList),
        ("pattern".toList, Json.string slices_pattern_text),
        ("special_tokens".toList, Json.object
          [("cls_token".toList, Json.string "[CLS]".toList),
            ("eos_token".toList, Json.string "[EOS]".toList),
            ("mask_token".toList, Json.string "[MASK]".toList),
            ("pad_token".toList, Json.string "[PAD]".toList),
            ("sep_token".toList, Json.string "[SEP]".toList),
            ("unk_token".toList, Json.string t.unk_token_)]),
        ("unk_token".toList, Json.string t.unk_token_),
        ("vocab".toList, Json.object
          ((t.vocab_.foldl (fun o p => obj_set o p.1 p.2) []).map
            (fun p => (p.1, Json.number p.2)))),
        ("vocab_size".toList, Json.number t.vocab_size_)] := by
    have := foldl_obj_set_map Json.number t.vocab_ []
    simp only [List.map_nil] at this
    rw [← this]
    rfl
  rw [hsave]
  simp only [load, Json.members]
  have h1 : ∀ kvs : List (Str × Json), kvs =
      [("model_type".toList, Json.string "SLICESTokenizer".toList),
        ("pattern".toList, Json.string slices_pattern_text),
        ("special_tokens".toList, Json.object
          [("cls_token".toList, Json.string "[CLS]".toList),
            ("eos_token".toList, Json.string "[EOS]".toList),
            ("mask_token".toList, Json.string "[MASK]".toList),
            ("pad_token".toList, Json.string "[PAD]".toList),
            ("sep_token".toList, Json.string "[SEP]".toList),
            ("unk_token".toList, Json.string t.unk_token_)]),
        ("unk_token".toList, Json.string t.unk_token_),
        ("vocab".toList, Json.object
          ((t.vocab_.foldl (fun o p => obj_set o p.1 p.2) []).map
            (fun p => (p.1, Json.number p.2)))),
        ("vocab_size".toList, Json.number t.vocab_size_)] →
      json_field kvs "vocab_size".toList = Json.number t.vocab_size_ ∧
      json_field kvs "unk_token".toList = Json.string t.unk_token_ ∧
      json_field kvs "vocab".toList = Json.object
          ((t.vocab_.foldl (fun o p => obj_set o p.1 p.2) []).map
            (fun p => (p.1, Json.number p.2))) ∧
      json_field kvs "pattern".toList = Json.string slices_pattern_text ∧
      (find kvs "pattern".toList).isSome = true := by
    rintro kvs rfl
    exact ⟨rfl, rfl, rfl, rfl, rfl⟩
  obtain ⟨e1, e2, e3, e4, e5⟩ := h1 _ rfl
  rw [e1, e2, e3, e4, e5]
  simp only [Json.to_int, Json.to_str, Json.items, int_cast_of_range _ hc.1 hc.2]
  rw [load_vocab_loop_eq]
  · simp [L.regex_valid_slices]
  · simpa using (hperm.map Prod.fst).nodup_iff.2 hk
  · simpa using (hperm.map Prod.snd).nodup_iff.2 hv
  · rfl
  · intro p hp
    exact hr p.2 (List.mem_map.2 ⟨p, hperm.mem_iff.1 hp, rfl⟩)

/-! ## Claims -/

theorem train_inverse (L : StdLib) (t : SLICESTokenizer) (training_data : List Str)
    (vocab_size : Int) (tok : Str) (j : Int)
    (h : find (train_from_iterator L t training_data vocab_size).vocab_ tok = some j) :
    find (train_from_iterator L t training_data vocab_size).id_to_token_ j = some tok := by
  rw [train_from_iterator_eq] at h ⊢
  simp only at h ⊢
  refine find_swap _ tok j ?_ h
  rw [List.map_append, List.nodup_append]
  obtain ⟨hge, hnd⟩ := learned_values 6
    (((sorted_tokens L training_data).map Prod.fst).take (vocab_size - 6).toNat)
  refine ⟨by decide, hnd, ?_⟩
  intro a ha hb
  have h6 := hge a hb
  have hs : special_vocab.map Prod.snd = [0, 1, 2, 3, 4, 5] := rfl
  rw [hs] at ha
  simp only [List.mem_cons, List.mem_singleton, List.not_mem_nil, or_false] at ha
  omega

theorem length_train_vocab (L : StdLib) (t : SLICESTokenizer) (training_data : List Str)
    (vocab_size : Int) :
    (train_from_iterator L t training_data vocab_size).vocab_.length =
      6 + min (vocab_size - 6).toNat (corpus_tokens training_data).dedup.length := by
  rw [train_from_iterator_eq]
  simp only [List.length_append, length_learned, List.length_take, List.length_map,
    length_sorted_tokens]
  rfl

/-- C1: for a tokenizer trained on any corpus with any capacity, and a string made of element
symbols, digit runs and bond triplets joined by single spaces, all of them in the trained
vocabulary, decoding the ids of the encoding gives the string back. -/
theorem decode_encode_roundtrip (L : StdLib) (t : SLICESTokenizer) (training_data : List Str)
    (vocab_size : Int) (ts : List Str)
    (hts : ∀ tok ∈ ts, is_slices_token tok = true)
    (hin : ∀ tok ∈ ts, in_vocab (train_from_iterator L t training_data vocab_size) tok = true) :
    decode (train_from_iterator L t training_data vocab_size)
      (encode (train_from_iterator L t training_data vocab_size) (join ts)).ids = join ts := by
  rw [decode_eq, encode_eq]
  simp only
  have hseg : (pre_tokenize (join ts)).map (fun sp => sp.token) = ts := by
    rw [pre_tokenize_eq_scan_all]
    exact scan_all_join ts hts 0
  have hmap : (pre_tokenize (join ts)).map
      (fun sp => token_to_id (train_from_iterator L t training_data vocab_size) sp.token)
      = ts.map (token_to_id (train_from_iterator L t training_data vocab_size)) := by
    conv_rhs => rw [← hseg]
    rw [List.map_map]
    rfl
  rw [hmap, List.map_map]
  congr 1
  conv_rhs => rw [← List.map_id ts]
  apply List.map_congr_left
  intro tok htok
  obtain ⟨j, hj⟩ := Option.isSome_iff_exists.1 (hin tok htok)
  simp only [Function.comp, token_to_id_eq, id_to_token_eq, hj, Option.getD_some,
    train_inverse L t training_data vocab_size tok j hj, id]

/-- Witness for C1: a string of the demo corpus, after training on its first line with
capacity 1000. -/
theorem decode_encode_roundtrip_witness :
    (∀ tok ∈ ["Ga".toList, "Bi".toList, "Bi".toList, "S".toList, "Cl".toList, "0".toList,
        "3".toList, "--o".toList], is_slices_token tok = true) ∧
      (∀ tok ∈ ["Ga".toList, "Bi".toList, "Bi".toList, "S".toList, "Cl".toList, "0".toList,
        "3".toList, "--o".toList],
        in_vocab (train_from_iterator newest_first_lib SLICESTokenizer.new
          ["Ga Bi Bi S S S S Cl 0 3 --o".toList] 1000) tok = true) ∧
      join ["Ga".toList, "Bi".toList, "Bi".toList, "S".toList, "Cl".toList, "0".toList,
        "3".toList, "--o".toList] = "Ga Bi Bi S Cl 0 3 --o".toList ∧
      decode
        (train_from_iterator newest_first_lib SLICESTokenizer.new
          ["Ga Bi Bi S S S S Cl 0 3 --o".toList] 1000)
        (encode
          (train_from_iterator newest_first_lib SLICESTokenizer.new
            ["Ga Bi Bi S S S S Cl 0 3 --o".toList] 1000)
          (join ["Ga".toList, "Bi".toList, "Bi".toList, "S".toList, "Cl".toList, "0".toList,
            "3".toList, "--o".toList])).ids
        = join ["Ga".toList, "Bi".toList, "Bi".toList, "S".toList, "Cl".toList, "0".toList,
            "3".toList, "--o".toList] :=
  ⟨by decide, by decide, by decide,
    decode_encode_roundtrip newest_first_lib SLICESTokenizer.new
      ["Ga Bi Bi S S S S Cl 0 3 --o".toList] 1000 _ (by decide) (by decide)⟩

/-- C2: for a tokenizer `T` trained on any corpus with any capacity (an `int`), and a tokenizer
`l` in any state, loading into `l` the record that `T.save` writes returns normally; afterwards
the token-to-id map of `l` has exactly the entries of that of `T` (so every lookup agrees and
nothing of the earlier vocabulary of `l` is left), the id-to-token maps agree likewise, capacity
and unknown-token string are those of `T`, and every string encodes to the same tokens and the
same ids. -/
theorem save_load_roundtrip (Lt Ll : StdLib) (t l : SLICESTokenizer) (training_data : List Str)
    (vocab_size : Int) (hlo : -2147483648 ≤ vocab_size) (hhi : vocab_size ≤ 2147483647) :
    ∃ l1, load Ll l (save (train_from_iterator Lt t training_data vocab_size))
        = LoadResult.returned l1 ∧
      l1.vocab_.Perm (train_from_iterator Lt t training_data vocab_size).vocab_ ∧
      (∀ tok, find l1.vocab_ tok
        = find (train_from_iterator Lt t training_data vocab_size).vocab_ tok) ∧
      l1.id_to_token_.Perm (train_from_iterator Lt t training_data vocab_size).id_to_token_ ∧
      l1.vocab_size_ = (train_from_iterator Lt t training_data vocab_size).vocab_size_ ∧
      l1.unk_token_ = (train_from_iterator Lt t training_data vocab_size).unk_token_ ∧
      ∀ s, (encode l1 s).tokens
            = (encode (train_from_iterator Lt t training_data vocab_size) s).tokens ∧
          (encode l1 s).ids
            = (encode (train_from_iterator Lt t training_data vocab_size) s).ids := by
  obtain ⟨hk, hv, hr, hinv⟩ := train_well_formed Lt t training_data vocab_size
  have hsize : (train_from_iterator Lt t training_data vocab_size).vocab_size_ = vocab_size := by
    rw [train_from_iterator_eq]
  have hperm : ((train_from_iterator Lt t training_data vocab_size).vocab_.foldl
      (fun o p => obj_set o p.1 p.2) []).Perm
      (train_from_iterator Lt t training_data vocab_size).vocab_ := by
    have := foldl_obj_set_perm (train_from_iterator Lt t training_data vocab_size).vocab_ []
      (by simpa using hk)
    simpa using this
  have hfind : ∀ tok, find ((train_from_iterator Lt t training_data vocab_size).vocab_.foldl
      (fun o p => obj_set o p.1 p.2) []) tok
      = find (train_from_iterator Lt t training_data vocab_size).vocab_ tok :=
    fun tok => find_eq_of_perm _ _ hperm hk tok
  refine ⟨_, load_save_eq Ll l (train_from_iterator Lt t training_data vocab_size) hk hv ?_ ?_,
    hperm, hfind, ?_, rfl, rfl, ?_⟩
  · intro j hj
    have := hr j hj
    omega
  · rw [hsize]
    exact ⟨hlo, hhi⟩
  · simp only
    rw [hinv]
    exact hperm.map Prod.swap
  · intro s
    rw [encode_eq, encode_eq]
    simp only [token_to_id_eq, hfind, and_self]

/-- Witness for C2: a tokenizer trained on a demo line with capacity 1000, saved, and loaded
into a tokenizer that was trained before on another corpus. -/
theorem save_load_roundtrip_witness :
    (-2147483648 : Int) ≤ 1000 ∧ (1000 : Int) ≤ 2147483647 ∧
      ∃ l1, load insertion_order_lib
          (train_from_iterator insertion_order_lib SLICESTokenizer.new ["H H O".toList] 7)
          (save (train_from_iterator newest_first_lib SLICESTokenizer.new
            ["Ga Bi Bi S S S S Cl 0 3 --o".toList] 1000))
          = LoadResult.returned l1 ∧
        l1.vocab_.Perm (train_from_iterator newest_first_lib SLICESTokenizer.new
          ["Ga Bi Bi S S S S Cl 0 3 --o".toList] 1000).vocab_ ∧
        (∀ tok, find l1.vocab_ tok
          = find (train_from_iterator newest_first_lib SLICESTokenizer.new
              ["Ga Bi Bi S S S S Cl 0 3 --o".toList] 1000).vocab_ tok) ∧
        l1.id_to_token_.Perm (train_from_iterator newest_first_lib SLICESTokenizer.new
          ["Ga Bi Bi S S S S Cl 0 3 --o".toList] 1000).id_to_token_ ∧
        l1.vocab_size_ = (train_from_iterator newest_first_lib SLICESTokenizer.new
          ["Ga Bi Bi S S S S Cl 0 3 --o".toList] 1000).vocab_size_ ∧
        l1.unk_token_ = (train_from_iterator newest_first_lib SLICESTokenizer.new
          ["Ga Bi Bi S S S S Cl 0 3 --o".toList] 1000).unk_token_ ∧
        ∀ s, (encode l1 s).tokens
              = (encode (train_from_iterator newest_first_lib SLICESTokenizer.new
                  ["Ga Bi Bi S S S S Cl 0 3 --o".toList] 1000) s).tokens ∧
            (encode l1 s).ids
              = (encode (train_from_iterator newest_first_lib SLICESTokenizer.new
                  ["Ga Bi Bi S S S S Cl 0 3 --o".toList] 1000) s).ids :=
  ⟨by decide, by decide,
    save_load_roundtrip newest_first_lib insertion_order_lib SLICESTokenizer.new
      (train_from_iterator insertion_order_lib SLICESTokenizer.new ["H H O".toList] 7)
      ["Ga Bi Bi S S S S Cl 0 3 --o".toList] 1000 (by decide) (by decide)⟩

/-- C3: after training on any corpus with any capacity, the ids 0 to 5 name the six special
tokens in their fixed order, and each special token maps back to its id. -/
theorem special_token_ids (L : StdLib) (t : SLICESTokenizer) (training_data : List Str)
    (vocab_size : Int) :
    [0, 1, 2, 3, 4, 5].map (id_to_token (train_from_iterator L t training_data vocab_size))
        = ["[UNK]".toList, "[PAD]".toList, "[CLS]".toList, "[SEP]".toList, "[MASK]".toList,
            "[EOS]".toList] ∧
      ["[UNK]".toList, "[PAD]".toList, "[CLS]".toList, "[SEP]".toList, "[MASK]".toList,
          "[EOS]".toList].map (token_to_id (train_from_iterator L t training_data vocab_size))
        = [0, 1, 2, 3, 4, 5] := by
  have hv : ∀ (X : List (Str × Int)) (p : Str × Int), p ∈ special_vocab →
      find (special_vocab ++ X) p.1 = some p.2 := by
    intro X p hp
    rw [find_append, find_eq_some_of_mem special_vocab p.1 p.2 (by decide) hp]
    rfl
  have hr : ∀ (X : List (Str × Int)) (p : Str × Int), p ∈ special_vocab →
      find ((special_vocab ++ X).map Prod.swap) p.2 = some p.1 := by
    intro X p hp
    rw [List.map_append, find_append,
      find_eq_some_of_mem (special_vocab.map Prod.swap) p.2 p.1 (by decide)
        (List.mem_map.2 ⟨p, hp, rfl⟩)]
    rfl
  simp only [List.map_cons, List.map_nil, token_to_id_eq, id_to_token_eq,
    train_from_iterator_eq]
  refine ⟨?_, ?_⟩
  · rw [hr _ ("[UNK]".toList, 0) (by decide), hr _ ("[PAD]".toList, 1) (by decide),
      hr _ ("[CLS]".toList, 2) (by decide), hr _ ("[SEP]".toList, 3) (by decide),
      hr _ ("[MASK]".toList, 4) (by decide), hr _ ("[EOS]".toList, 5) (by decide)]
    rfl
  · rw [hv _ ("[UNK]".toList, 0) (by decide), hv _ ("[PAD]".toList, 1) (by decide),
      hv _ ("[CLS]".toList, 2) (by decide), hv _ ("[SEP]".toList, 3) (by decide),
      hv _ ("[MASK]".toList, 4) (by decide), hv _ ("[EOS]".toList, 5) (by decide)]
    rfl

/-- C4, as stated, fails: trained with capacity 0 on the empty corpus, the vocabulary holds the
six special tokens, which is more than the capacity, although the corpus has at least
`0 - 6` distinct tokens. -/
theorem vocab_size_exceeds_small_capacity :
    ¬ (get_vocab_size (train_from_iterator insertion_order_lib SLICESTokenizer.new [] 0) ≤ 0) ∧
      (0 : Int) - 6 ≤ ((corpus_tokens []).dedup.length : Int) ∧
      get_vocab_size (train_from_iterator insertion_order_lib SLICESTokenizer.new [] 0) ≠ 0 := by
  decide

/-- C4, amended: for every corpus and every capacity of at least 6, the vocabulary size after
training is at most the capacity, and it is exactly the capacity whenever the corpus holds at
least `capacity - 6` distinct tokens. -/
theorem vocab_size_le_capacity (L : StdLib) (t : SLICESTokenizer) (training_data : List Str)
    (vocab_size : Int) (h6 : 6 ≤ vocab_size) :
    get_vocab_size (train_from_iterator L t training_data vocab_size) ≤ vocab_size ∧
      (vocab_size - 6 ≤ ((corpus_tokens training_data).dedup.length : Int) →
        get_vocab_size (train_from_iterator L t training_data vocab_size) = vocab_size) := by
  unfold get_vocab_size
  rw [length_train_vocab]
  constructor
  · omega
  · intro hd
    omega

/-- Witness for C4, amended: capacity 8 on a corpus of three distinct tokens. -/
theorem vocab_size_le_capacity_witness :
    (6 : Int) ≤ 8 ∧
      (8 : Int) - 6 ≤ ((corpus_tokens ["Ga Bi 0".toList]).dedup.length : Int) ∧
      get_vocab_size
        (train_from_iterator insertion_order_lib SLICESTokenizer.new ["Ga Bi 0".toList] 8) ≤ 8 ∧
      get_vocab_size
        (train_from_iterator insertion_order_lib SLICESTokenizer.new ["Ga Bi 0".toList] 8) = 8 :=
  ⟨by decide, by decide,
    (vocab_size_le_capacity insertion_order_lib SLICESTokenizer.new ["Ga Bi 0".toList] 8
      (by decide)).1,
    (vocab_size_le_capacity insertion_order_lib SLICESTokenizer.new ["Ga Bi 0".toList] 8
      (by decide)).2 (by decide)⟩

/-- C5: training depends only on its arguments: from any two tokenizer states, training on the
same corpus with the same capacity gives the same token-to-id map (and the same id-to-token
map and capacity). -/
theorem train_deterministic (L : StdLib) (t1 t2 : SLICESTokenizer) (training_data : List Str)
    (vocab_size : Int) :
    (train_from_iterator L t1 training_data vocab_size).vocab_ =
        (train_from_iterator L t2 training_data vocab_size).vocab_ ∧
      (train_from_iterator L t1 training_data vocab_size).id_to_token_ =
        (train_from_iterator L t2 training_data vocab_size).id_to_token_ ∧
      (train_from_iterator L t1 training_data vocab_size).vocab_size_ =
        (train_from_iterator L t2 training_data vocab_size).vocab_size_ := by
  rw [train_from_iterator_eq L t1, train_from_iterator_eq L t2]
  exact ⟨rfl, rfl, rfl⟩

/-- C6: ids follow descending frequency: when `a` occurs strictly more often in the corpus than
`b`, and `b` (not a special token) is in the trained vocabulary, then `a` is in it too, with a
smaller id. -/
theorem ids_follow_frequency (L : StdLib) (t : SLICESTokenizer) (training_data : List Str)
    (vocab_size : Int) (a b : Str)
    (hab : (corpus_tokens training_data).count b < (corpus_tokens training_data).count a)
    (hb : b ∉ special_tokens_)
    (hin : in_vocab (train_from_iterator L t training_data vocab_size) b = true) :
    in_vocab (train_from_iterator L t training_data vocab_size) a = true ∧
      token_to_id (train_from_iterator L t training_data vocab_size) a <
        token_to_id (train_from_iterator L t training_data vocab_size) b := by
  have hsb : find special_vocab b = none := by
    rw [find_eq_none_iff]
    exact hb
  have hbk : b ∈ (sorted_tokens L training_data).map Prod.fst := by
    have h1 := hin
    simp only [in_vocab, find_train_vocab_of_head L t training_data vocab_size b hsb] at h1
    by_contra hno
    have : find (learned 6 (((sorted_tokens L training_data).map Prod.fst).take
        (vocab_size - 6).toNat)) b = none :=
      (find_learned_eq_none_iff _ _ _).2 (fun hm => hno (List.mem_of_mem_take hm))
    rw [this] at h1
    exact absurd h1 (by simp)
  obtain ⟨⟨b1, cb⟩, hbm, hb1⟩ := List.mem_map.1 hbk
  simp only at hb1
  subst hb1
  have hcb := (mem_sorted_tokens_iff L training_data (b1, cb)).1 hbm
  have ham : (a, (corpus_tokens training_data).count a) ∈ sorted_tokens L training_data :=
    (mem_sorted_tokens_iff L training_data _).2 ⟨rfl, by simp only; omega⟩
  have hsub := sublist_pair_of_sorted _ (L.sort_sorted _) _ _ ham hbm (by
    simp only at hcb ⊢
    omega)
  exact train_order L t training_data vocab_size a b1 (hsub.map Prod.fst) hin

/-- Witness for C6: with `--o` five times and `ooo` once at capacity 1000, `--o` gets the
smaller id. -/
theorem ids_follow_frequency_witness :
    (corpus_tokens ["--o --o ooo --o --o --o".toList]).count "ooo".toList
        < (corpus_tokens ["--o --o ooo --o --o --o".toList]).count "--o".toList ∧
      "ooo".toList ∉ special_tokens_ ∧
      in_vocab
        (train_from_iterator newest_first_lib SLICESTokenizer.new
          ["--o --o ooo --o --o --o".toList] 1000) "ooo".toList = true ∧
      in_vocab
        (train_from_iterator newest_first_lib SLICESTokenizer.new
          ["--o --o ooo --o --o --o".toList] 1000) "--o".toList = true ∧
      token_to_id
          (train_from_iterator newest_first_lib SLICESTokenizer.new
            ["--o --o ooo --o --o --o".toList] 1000) "--o".toList <
        token_to_id
          (train_from_iterator newest_first_lib SLICESTokenizer.new
            ["--o --o ooo --o --o --o".toList] 1000) "ooo".toList :=
  ⟨by decide, by decide, by decide,
    ids_follow_frequency newest_first_lib SLICESTokenizer.new
      ["--o --o ooo --o --o --o".toList] 1000 "--o".toList "ooo".toList
      (by decide) (by decide) (by decide)⟩

/-- C7, as stated, fails: `A` and `B` occur once each and `A` is met first, yet with a hash map
that enumerates the newest key first `B` gets the smaller id. -/
theorem first_encounter_order_fails :
    (corpus_tokens ["A B".toList]).count "A".toList
        = (corpus_tokens ["A B".toList]).count "B".toList ∧
      (corpus_tokens ["A B".toList]).indexOf "A".toList
        < (corpus_tokens ["A B".toList]).indexOf "B".toList ∧
      in_vocab (train_from_iterator newest_first_lib SLICESTokenizer.new ["A B".toList] 1000)
        "B".toList = true ∧
      ¬ (token_to_id (train_from_iterator newest_first_lib SLICESTokenizer.new ["A B".toList] 1000)
          "A".toList <
        token_to_id (train_from_iterator newest_first_lib SLICESTokenizer.new ["A B".toList] 1000)
          "B".toList) := by
  decide

/-- C7, amended: frequency ties are broken by the order in which the sort leaves the tokens:
for any two tokens `a` and `b` where `a` stands before `b` in the sorted token list, if `b` is
in the trained vocabulary then `a` is too, with a smaller id. -/
theorem ids_follow_sorted_order (L : StdLib) (t : SLICESTokenizer) (training_data : List Str)
    (vocab_size : Int) (a b : Str)
    (hsub : [a, b].Sublist ((sorted_tokens L training_data).map Prod.fst))
    (hin : in_vocab (train_from_iterator L t training_data vocab_size) b = true) :
    in_vocab (train_from_iterator L t training_data vocab_size) a = true ∧
      token_to_id (train_from_iterator L t training_data vocab_size) a <
        token_to_id (train_from_iterator L t training_data vocab_size) b :=
  train_order L t training_data vocab_size a b hsub hin

/-- Witness for C7, amended: `B` stands before `A` in the sorted list of the newest-first
library. -/
theorem ids_follow_sorted_order_witness :
    ["B".toList, "A".toList].Sublist
        ((sorted_tokens newest_first_lib ["A B".toList]).map Prod.fst) ∧
      in_vocab (train_from_iterator newest_first_lib SLICESTokenizer.new ["A B".toList] 1000)
        "A".toList = true ∧
      in_vocab (train_from_iterator newest_first_lib SLICESTokenizer.new ["A B".toList] 1000)
        "B".toList = true ∧
      token_to_id (train_from_iterator newest_first_lib SLICESTokenizer.new ["A B".toList] 1000)
          "B".toList <
        token_to_id (train_from_iterator newest_first_lib SLICESTokenizer.new ["A B".toList] 1000)
          "A".toList :=
  ⟨by decide, by decide,
    ids_follow_sorted_order newest_first_lib SLICESTokenizer.new ["A B".toList] 1000
      "B".toList "A".toList (by decide) (by decide)⟩

/-- C8: for every text and every vocabulary state, the encoding has as many tokens as ids as
spans, the token of span `i` is token `i`, and the spans do not overlap and start at strictly
increasing positions: a span ends no later than any later span starts. -/
theorem encode_span_invariant (t : SLICESTokenizer) (text : Str) :
    (encode t text).tokens.length = (encode t text).ids.length ∧
      (encode t text).ids.length = (encode t text).spans.length ∧
      (encode t text).spans.map (fun sp => sp.token) = (encode t text).tokens ∧
      (encode t text).spans.Pairwise (fun a b => a.end_ ≤ b.start ∧ a.start < b.start) := by
  rw [encode_eq]
  simp only [List.length_map, true_and]
  exact pre_tokenize_pairwise text

/-- C9: for every list of tokens, each an element symbol, a non-empty digit run or a bond
triplet, `pre_tokenize` of the tokens joined by single spaces returns exactly these token
texts, in order. -/
theorem pre_tokenize_join (ts : List Str) (hts : ∀ tok ∈ ts, is_slices_token tok = true) :
    (pre_tokenize (join ts)).map (fun sp => sp.token) = ts := by
  rw [pre_tokenize_eq_scan_all]
  exact scan_all_join ts hts 0

/-- Witness for C9: the string `Ga Bi Bi S S S S Cl 0 3 --o`. -/
theorem pre_tokenize_join_witness :
    join ["Ga".toList, "Bi".toList, "Bi".toList, "S".toList, "S".toList, "S".toList,
        "S".toList, "Cl".toList, "0".toList, "3".toList, "--o".toList]
        = "Ga Bi Bi S S S S Cl 0 3 --o".toList ∧
      (pre_tokenize (join ["Ga".toList, "Bi".toList, "Bi".toList, "S".toList, "S".toList,
        "S".toList, "S".toList, "Cl".toList, "0".toList, "3".toList, "--o".toList])).map
          (fun sp => sp.token)
        = ["Ga".toList, "Bi".toList, "Bi".toList, "S".toList, "S".toList, "S".toList,
            "S".toList, "Cl".toList, "0".toList, "3".toList, "--o".toList] :=
  ⟨by decide, pre_tokenize_join _ (by decide)⟩

/-- C10: the forward lookup never fails and never drops a token: the tokens of an encoding
are the token texts of `pre_tokenize` verbatim, the spans are its spans, id `i` is
`token_to_id` of token `i`, which is the id stored in `vocab_` when the token is present and
the unknown id 0 otherwise; on an untrained tokenizer `token_to_id` is 0 for every string. -/
theorem encode_unknown_fallback (t : SLICESTokenizer) (text tok : Str) :
    (encode t text).tokens = (pre_tokenize text).map (fun sp => sp.token) ∧
      (encode t text).spans = pre_tokenize text ∧
      (encode t text).ids = (encode t text).tokens.map (token_to_id t) ∧
      token_to_id t tok = (find t.vocab_ tok).getD 0 ∧
      token_to_id SLICESTokenizer.new tok = 0 ∧
      token_to_id SLICESTokenizer.new "not-a-real-token".toList = 0 := by
  rw [encode_eq]
  refine ⟨rfl, rfl, ?_, token_to_id_eq t tok, rfl, rfl⟩
  simp only [List.map_map]
  rfl

/-! ## Decoding, and the shape of a trained vocabulary -/

theorem join_eq_intercalate (xs : List Str) : join xs = List.intercalate [' '] xs := by
  induction xs with
  | nil => rfl
  | cons x rest ih =>
    match rest, ih with
    | [], _ => simp [join, List.intercalate]
    | y :: rest1, ih =>
      rw [join, ih]
      simp [List.intercalate, List.intersperse]

theorem values_learned (k : Int) (ks : List Str) :
    (learned k ks).map Prod.snd = (List.range ks.length).map (fun (i : Nat) => k + (i : Int)) := by
  induction ks generalizing k with
  | nil => rfl
  | cons tok rest ih =>
    rw [learned, List.map_cons, ih, List.length_cons, List.range_succ_eq_map, List.map_cons,
      List.map_map]
    simp only [Nat.cast_zero, add_zero, List.cons.injEq, true_and]
    apply List.map_congr_left
    intro i _
    simp only [Function.comp, Nat.cast_succ]
    omega

/-- The ids of a trained vocabulary, in the order of its entries, are `0, 1, ..., N - 1`. -/
theorem train_ids_dense (L : StdLib) (t : SLICESTokenizer) (training_data : List Str)
    (vocab_size : Int) :
    (train_from_iterator L t training_data vocab_size).vocab_.map Prod.snd =
      (List.range (train_from_iterator L t training_data vocab_size).vocab_.length).map
        (fun (i : Nat) => (i : Int)) := by
  rw [train_from_iterator_eq]
  simp only [List.map_append, values_learned, List.length_append, length_learned]
  have h6 : special_vocab.length = 6 := rfl
  have hs : special_vocab.map Prod.snd = (List.range 6).map (fun (i : Nat) => (i : Int)) := by
    decide
  rw [h6, hs, List.range_add, List.map_append, List.map_map]
  congr 1

/-- Both directions of the lookups of a trained tokenizer agree. -/
theorem train_inverse_iff (L : StdLib) (t : SLICESTokenizer) (training_data : List Str)
    (vocab_size : Int) (tok : Str) (j : Int) :
    find (train_from_iterator L t training_data vocab_size).vocab_ tok = some j ↔
      find (train_from_iterator L t training_data vocab_size).id_to_token_ j = some tok := by
  obtain ⟨hk, hv, _, hinv⟩ := train_well_formed L t training_data vocab_size
  constructor
  · intro h
    rw [hinv]
    exact find_swap _ tok j hv h
  · intro h
    rw [hinv] at h
    have hk1 : (((train_from_iterator L t training_data vocab_size).vocab_.map Prod.swap).map
        Prod.snd).Nodup := by
      simpa [List.map_map, Function.comp] using hk
    have := find_swap _ j tok hk1 h
    simpa [List.map_map, Function.comp] using this

/-! ## Loading arbitrary records -/

theorem find_swap_iff {K V : Type} [DecidableEq K] [DecidableEq V] (m : List (K × V))
    (hk : (m.map Prod.fst).Nodup) (hv : (m.map Prod.snd).Nodup) (q : K) (v : V) :
    find m q = some v ↔ find (m.map Prod.swap) v = some q := by
  constructor
  · exact find_swap m q v hv
  · intro h
    have hk1 : ((m.map Prod.swap).map Prod.snd).Nodup := by
      simpa [List.map_map, Function.comp] using hk
    have := find_swap _ v q hk1 h
    simpa [List.map_map, Function.comp] using this

/-- A failure on `vocab_size` leaves the tokenizer as it was. -/
theorem load_fails_on_vocab_size (L : StdLib) (t : SLICESTokenizer) (config : Json)
    (h : config.members = none ∨
      ∃ kvs, config.members = some kvs ∧ (json_field kvs "vocab_size".toList).to_int = none) :
    load L t config = LoadResult.thrown LoadError.type_error t := by
  unfold load
  rcases h with h | ⟨kvs, h1, h2⟩
  · rw [h]
  · rw [h1]
    simp only [h2]

/-- A failure on `unk_token` leaves the new capacity behind. -/
theorem load_fails_on_unk_token (L : StdLib) (t : SLICESTokenizer) (config : Json)
    (kvs : List (Str × Json)) (n : Int) (h1 : config.members = some kvs)
    (h2 : (json_field kvs "vocab_size".toList).to_int = some n)
    (h3 : (json_field kvs "unk_token".toList).to_str = none) :
    load L t config = LoadResult.thrown LoadError.type_error { t with vocab_size_ := n } := by
  unfold load
  rw [h1]
  simp only [h2, h3]

theorem to_int_null : Json.null.to_int = none := rfl

theorem to_str_null : Json.null.to_str = none := rfl

theorem json_field_of_find_eq_none (kvs : List (Str × Json)) (key : Str)
    (h : find kvs key = none) : json_field kvs key = Json.null := by
  simp [json_field, h]

/-- What a normal return of `load` says about the record and the loop over `vocab`. -/
theorem load_returned (L : StdLib) (t t1 : SLICESTokenizer) (config : Json)
    (h : load L t config = LoadResult.returned t1) :
    ∃ kvs n u t4, config.members = some kvs ∧
      (json_field kvs "vocab_size".toList).to_int = some n ∧
      (json_field kvs "unk_token".toList).to_str = some u ∧
      load_vocab_loop (json_field kvs "vocab".toList).items
        { t with vocab_size_ := n, unk_token_ := u, vocab_ := [], id_to_token_ := [] }
        = LoadResult.returned t4 ∧
      t1.vocab_ = t4.vocab_ ∧ t1.id_to_token_ = t4.id_to_token_ ∧
      t1.vocab_size_ = t4.vocab_size_ ∧ t1.unk_token_ = t4.unk_token_ := by
  unfold load at h
  cases hm : config.members with
  | none =>
    rw [hm] at h
    cases h
  | some kvs =>
    rw [hm] at h
    cases hn : (json_field kvs "vocab_size".toList).to_int with
    | none =>
      simp only [hn] at h
      cases h
    | some n =>
      cases hu : (json_field kvs "unk_token".toList).to_str with
      | none =>
        simp only [hn, hu] at h
        cases h
      | some u =>
        simp only [hn, hu] at h
        cases hl : load_vocab_loop (json_field kvs "vocab".toList).items
            { t with vocab_size_ := n, unk_token_ := u, vocab_ := [], id_to_token_ := [] } with
        | thrown e t4 =>
          simp only [hl] at h
          cases h
        | returned t4 =>
          refine ⟨kvs, n, u, t4, rfl, hn, hu, hl, ?_⟩
          simp only [hl] at h
          split_ifs at h with hp
          · cases hs : (json_field kvs "pattern".toList).to_str with
            | none =>
              simp only [hs] at h
              cases h
            | some p =>
              simp only [hs] at h
              split_ifs at h
              cases h
              exact ⟨rfl, rfl, rfl, rfl⟩
          · cases h
            exact ⟨rfl, rfl, rfl, rfl⟩

theorem load_vocab_loop_fields (items : List (Str × Json)) (t t1 : SLICESTokenizer)
    (h : load_vocab_loop items t = LoadResult.returned t1) :
    t1.vocab_size_ = t.vocab_size_ ∧ t1.unk_token_ = t.unk_token_ := by
  induction items generalizing t with
  | nil =>
    simp only [load_vocab_loop, LoadResult.returned.injEq] at h
    subst h
    exact ⟨rfl, rfl⟩
  | cons p rest ih =>
    obtain ⟨tok, v⟩ := p
    simp only [load_vocab_loop] at h
    cases hv : v.to_int with
    | none =>
      simp only [hv] at h
      cases h
    | some id =>
      simp only [hv] at h
      have := ih _ h
      exact this

/-- The loop of `load` on members with pairwise distinct keys and pairwise distinct ids keeps
the two maps mirror images of each other. -/
theorem load_vocab_loop_distinct (items : List (Str × Json)) (t t1 : SLICESTokenizer)
    (h : load_vocab_loop items t = LoadResult.returned t1)
    (hk : (t.vocab_.map Prod.fst ++ items.map Prod.fst).Nodup)
    (hv : (t.vocab_.map (fun p => some p.2) ++ items.map (fun p => p.2.to_int)).Nodup)
    (hinv : t.id_to_token_ = t.vocab_.map Prod.swap) :
    t1.id_to_token_ = t1.vocab_.map Prod.swap ∧ (t1.vocab_.map Prod.fst).Nodup ∧
      (t1.vocab_.map Prod.snd).Nodup := by
  induction items generalizing t with
  | nil =>
    simp only [load_vocab_loop, LoadResult.returned.injEq] at h
    subst h
    simp only [List.map_nil, List.append_nil] at hk hv
    refine ⟨hinv, hk, ?_⟩
    have : (t.vocab_.map (fun p => some p.2)) = (t.vocab_.map Prod.snd).map some := by
      rw [List.map_map]
      rfl
    rw [this] at hv
    exact List.Nodup.of_map _ hv
  | cons p rest ih =>
    obtain ⟨tok, v⟩ := p
    simp only [load_vocab_loop] at h
    cases hc : v.to_int with
    | none =>
      simp only [hc] at h
      cases h
    | some id =>
      simp only [hc] at h
      simp only [List.map_cons, hc] at hk hv
      have hf1 : find t.vocab_ tok = none := by
        rw [find_eq_none_iff]
        intro hin
        exact (List.nodup_append.1 hk).2.2 hin (List.mem_cons_self _ _)
      have hf2 : find t.id_to_token_ id = none := by
        rw [find_eq_none_iff, hinv]
        intro hin
        obtain ⟨q, hq, hq1⟩ := List.mem_map.1 hin
        obtain ⟨r, hr1, rfl⟩ := List.mem_map.1 hq
        simp only [Prod.fst_swap] at hq1
        exact (List.nodup_append.1 hv).2.2 (List.mem_map.2 ⟨r, hr1, by rw [hq1]⟩)
          (List.mem_cons_self _ _)
      rw [assign_of_find_eq_none _ _ _ hf1, assign_of_find_eq_none _ _ _ hf2] at h
      refine ih _ h ?_ ?_ ?_
      · simpa using hk
      · simpa using hv
      · simp [hinv]

/-! ## Every span is a match of the scan loop at its start -/

theorem char_at_length_takeWhile (cs : Str) :
    isdigit (char_at cs (cs.takeWhile isdigit).length) = false := by
  induction cs with
  | nil => decide
  | cons c cs ih =>
    rw [List.takeWhile_cons]
    by_cases hc : isdigit c = true
    · rw [if_pos hc, List.length_cons, char_at_cons_succ]
      exact ih
    · rw [if_neg hc]
      simpa [char_at_cons_zero] using hc

theorem isupper_not_isdigit (c : Char) (h : isupper c = true) : isdigit c = false := by
  cases hd : isdigit c with
  | false => rfl
  | true =>
    rw [isdigit_not_isupper c hd] at h
    cases h

theorem islower_not_isdigit (c : Char) (h : islower c = true) : isdigit c = false := by
  simp only [isdigit, islower, Bool.and_eq_true, decide_eq_true_eq, Bool.and_eq_false_iff,
    decide_eq_false_iff_not] at h ⊢
  omega

/-- After a match the scan loop does not stand inside a digit run. -/
theorem head_len_border (s : Str) (h : 0 < head_len s) :
    (isdigit (char_at s (head_len s - 1)) && isdigit (char_at s (head_len s))) = false := by
  match s, h with
  | c :: cs, h =>
    by_cases hu : isupper c = true
    · match cs with
      | [] =>
        simp [head_len, hu, char_at_cons_zero, isupper_not_isdigit c hu]
      | d :: r =>
        by_cases hl : islower d = true
        · simp [head_len, hu, hl, char_at_cons_zero, char_at_cons_succ, islower_not_isdigit d hl]
        · simp [head_len, hu, hl, char_at_cons_zero, isupper_not_isdigit c hu]
    · by_cases hd : isdigit c = true
      · have : head_len (c :: cs) = (cs.takeWhile isdigit).length + 1 := by
          simp only [head_len, hu, hd, if_true]
          simp
          omega
        rw [this, char_at_cons_succ, char_at_length_takeWhile]
        simp
      · match cs with
        | [] => simp [head_len, hu, hd] at h
        | [d] => simp [head_len, hu, hd] at h
        | d :: e :: r =>
          have hb : (is_bond_char c && is_bond_char d && is_bond_char e) = true := by
            by_contra hno
            simp [head_len, hu, hd, hno] at h
          simp only [Bool.and_eq_true] at hb
          have : head_len (c :: d :: e :: r) = 3 := by
            simp [head_len, hu, hd, hb.1.1, hb.1.2, hb.2]
          rw [this]
          simp [char_at_cons_succ, char_at_cons_zero, is_bond_char_not_isdigit e hb.2]

theorem head_len_zero_not_isdigit (c : Char) (cs : Str) (h : head_len (c :: cs) = 0) :
    isdigit c = false := by
  by_contra hd
  simp only [Bool.not_eq_false] at hd
  simp only [head_len, isdigit_not_isupper c hd, hd, if_true] at h
  simp at h

theorem scan_all_span_at (s pre : Str) (hb : digit_border (pre ++ s) pre.length = true) :
    ∀ sp ∈ scan_all pre.length s, span_at (pre ++ s) sp := by
  generalize hn : s.length = n
  induction n using Nat.strong_induction_on generalizing s pre with
  | _ n ih =>
    match s with
    | [] => simp [scan_all_nil]
    | c :: cs =>
      rw [scan_all_cons]
      have hle := head_len_le (c :: cs)
      simp only [List.length_cons] at hle hn
      by_cases hpos : head_len (c :: cs) > 0
      · rw [if_pos hpos]
        have hsplit : pre ++ c :: cs
            = (pre ++ (c :: cs).take (head_len (c :: cs))) ++ (c :: cs).drop (head_len (c :: cs)) := by
          rw [List.append_assoc, List.take_append_drop]
        have hlen : (pre ++ (c :: cs).take (head_len (c :: cs))).length
            = pre.length + head_len (c :: cs) := by
          rw [List.length_append, List.length_take, List.length_cons, Nat.min_eq_left hle]
        have hb1 : digit_border (pre ++ c :: cs) (pre.length + head_len (c :: cs)) = true := by
          have h1 := head_len_border (c :: cs) hpos
          have e1 : pre.length + head_len (c :: cs) - 1
              = pre.length + (head_len (c :: cs) - 1) := by omega
          simp only [digit_border, e1, char_at_append, h1]
          simp
        have hrec := ih ((c :: cs).drop (head_len (c :: cs))).length (by
          simp only [List.length_drop, List.length_cons]; omega)
          ((c :: cs).drop (head_len (c :: cs)))
          (pre ++ (c :: cs).take (head_len (c :: cs)))
          (by rw [← hsplit, hlen]; exact hb1) rfl
        rw [← hsplit, hlen] at hrec
        intro sp hsp
        rcases List.mem_cons.1 hsp with rfl | hsp
        · refine ⟨by simp, ?_, ?_, ?_, ?_, hb⟩
          · rw [match_len_append]; exact hpos
          · rw [match_len_append, substr_append]
          · rw [match_len_append]
          · simp only [List.length_append, List.length_cons]; omega
        · exact hrec sp hsp
      · rw [if_neg hpos]
        have h0 : head_len (c :: cs) = 0 := by omega
        have hb1 : digit_border (pre ++ c :: cs) (pre.length + 1) = true := by
          have e1 : pre.length + 1 - 1 = pre.length + 0 := by omega
          simp only [digit_border, e1, char_at_append, char_at_cons_zero,
            head_len_zero_not_isdigit c cs h0]
          simp
        have hrec := ih cs.length (by omega) cs (pre ++ [c]) (by
          simpa using hb1) rfl
        simpa using hrec

/-- Every span of `pre_tokenize` is what the loop body computes at its start position. -/
theorem pre_tokenize_span_at (text : Str) (sp : TokenSpan) (h : sp ∈ pre_tokenize text) :
    span_at text sp := by
  rw [pre_tokenize_eq_scan_all] at h
  exact scan_all_span_at text [] (by rfl) sp h

/-! ## The shape of the emitted tokens -/

theorem char_at_drop (text : Str) (p k : Nat) :
    char_at (text.drop p) k = char_at text (p + k) := by
  simp [char_at, List.getD_eq_getElem?_getD, List.getElem?_drop]

theorem match_len_eq_head_len_drop (text : Str) (p : Nat) (h : p ≤ text.length) :
    match_len text p = head_len (text.drop p) := by
  have := match_len_append (text.take p) (text.drop p)
  rw [List.take_append_drop, List.length_take, Nat.min_eq_left h] at this
  exact this

theorem take_length_takeWhile (p : Char → Bool) (l : Str) :
    l.take (l.takeWhile p).length = l.takeWhile p := by
  induction l with
  | nil => rfl
  | cons a l ih =>
    rw [List.takeWhile_cons]
    split_ifs
    · rw [List.length_cons, List.take_succ_cons, ih]
    · rfl

theorem all_takeWhile (p : Char → Bool) (l : Str) : (l.takeWhile p).all p = true := by
  induction l with
  | nil => rfl
  | cons a l ih =>
    rw [List.takeWhile_cons]
    split_ifs with h
    · simp only [List.all_cons, h, Bool.true_and]
      exact ih
    · rfl

/-- The token that the loop body computes is an element symbol (two characters exactly when a
lowercase letter follows), or a digit run that ends before a non-digit, or a bond triplet. -/
theorem head_len_shape (s : Str) (h : 0 < head_len s) :
    (is_element_symbol (s.take (head_len s)) = true ∧
        (head_len s = 2 ↔ (1 < s.length ∧ islower (char_at s 1) = true))) ∨
      (is_digit_run (s.take (head_len s)) = true ∧ isdigit (char_at s 0) = true ∧
        isdigit (char_at s (head_len s)) = false) ∨
      is_bond_triplet (s.take (head_len s)) = true := by
  match s, h with
  | c :: cs, h =>
    by_cases hu : isupper c = true
    · left
      match cs with
      | [] => simp [head_len, hu, is_element_symbol]
      | d :: r =>
        by_cases hl : islower d = true
        · simp [head_len, hu, hl, is_element_symbol, char_at_cons_succ, char_at_cons_zero]
        · simp [head_len, hu, hl, is_element_symbol, char_at_cons_succ, char_at_cons_zero]
    · by_cases hd : isdigit c = true
      · right; left
        have e : head_len (c :: cs) = (cs.takeWhile isdigit).length + 1 := by
          simp only [head_len, hu, hd, if_true]
          simp
          omega
        rw [e, List.take_succ_cons, take_length_takeWhile, char_at_cons_succ,
          char_at_length_takeWhile, char_at_cons_zero]
        refine ⟨?_, hd, rfl⟩
        simp only [is_digit_run, List.isEmpty_cons, Bool.not_false, Bool.true_and, List.all_cons,
          hd, all_takeWhile]
      · right; right
        match cs with
        | [] => simp [head_len, hu, hd] at h
        | [d] => simp [head_len, hu, hd] at h
        | d :: e :: r =>
          have hb : (is_bond_char c && is_bond_char d && is_bond_char e) = true := by
            by_contra hno
            simp [head_len, hu, hd, hno] at h
          have e3 : head_len (c :: d :: e :: r) = 3 := by
            simp only [Bool.and_eq_true] at hb
            simp [head_len, hu, hd, hb.1.1, hb.1.2, hb.2]
          rw [e3]
          simpa [is_bond_triplet] using hb

/-- No token has two of the three shapes. -/
theorem shape_exclusive (t : Str) :
    (is_element_symbol t).toNat + (is_digit_run t).toNat + (is_bond_triplet t).toNat ≤ 1 := by
  match t with
  | [] => decide
  | [c] =>
    have h3 : is_bond_triplet [c] = false := rfl
    cases hu : isupper c with
    | false => simp [is_element_symbol, hu, h3]; exact Bool.toNat_le _
    | true => simp [is_element_symbol, is_digit_run, hu, h3, isupper_not_isdigit c hu]
  | [c, d] =>
    have h3 : is_bond_triplet [c, d] = false := rfl
    cases hu : isupper c with
    | false => simp [is_element_symbol, hu, h3]; exact Bool.toNat_le _
    | true =>
      simp [is_element_symbol, is_digit_run, hu, h3, isupper_not_isdigit c hu]
      exact Bool.toNat_le _
  | [c, d, e] =>
    have h1 : is_element_symbol [c, d, e] = false := rfl
    cases hb : is_bond_char c with
    | false => simp [is_bond_triplet, hb, h1]; exact Bool.toNat_le _
    | true =>
      simp [is_bond_triplet, is_digit_run, hb, h1, is_bond_char_not_isdigit c hb]
      exact Bool.toNat_le _
  | c :: d :: e :: f :: r =>
    have h1 : is_element_symbol (c :: d :: e :: f :: r) = false := rfl
    have h3 : is_bond_triplet (c :: d :: e :: f :: r) = false := rfl
    simp [h1, h3]
    exact Bool.toNat_le _

/-! ## The scan loop reads inside the text and terminates -/

theorem read_at_append (pre s : Str) (k : Nat) (h : k < s.length) :
    read_at (pre ++ s) (pre.length + k) = some (char_at s k) := by
  unfold read_at
  rw [if_pos (by simp only [List.length_append]; omega), char_at_append]

theorem digit_run_checked_append (pre s : Str) (fuel len : Nat) (hf : s.length - len < fuel) :
    digit_run_checked (pre ++ s) pre.length fuel len
      = some (len + ((s.drop len).takeWhile isdigit).length) := by
  induction fuel generalizing len with
  | zero => omega
  | succ fuel ih =>
    unfold digit_run_checked
    by_cases hlen : len < s.length
    · have hlt : pre.length + len < (pre ++ s).length := by
        simp only [List.length_append]; omega
      rw [if_pos hlt, read_at_append pre s len hlen]
      simp only
      rw [List.drop_eq_getElem_cons hlen, List.takeWhile_cons]
      have hc : char_at s len = s[len] := by
        simp [char_at, List.getD_eq_getElem?_getD, List.getElem?_eq_getElem hlen]
      rw [hc]
      by_cases hd : isdigit s[len] = true
      · rw [if_pos hd, if_pos hd, ih (len + 1) (by omega)]
        simp only [List.length_cons, Option.some.injEq]
        omega
      · rw [if_neg hd, if_neg hd]
        simp
    · have hlt : ¬ pre.length + len < (pre ++ s).length := by
        simp only [List.length_append]; omega
      have : s.drop len = [] := List.drop_eq_nil_of_le (by omega)
      rw [if_neg hlt, this]
      simp

/-- With every read checked, the loop body computes the same `token_len`: no read is outside
the text. -/
theorem match_len_checked_append (pre s : Str) (hs : s ≠ []) :
    match_len_checked (pre ++ s) pre.length = some (head_len s) := by
  unfold match_len_checked
  have h0 : read_at (pre ++ s) pre.length = some (char_at s 0) := by
    have := read_at_append pre s 0 (List.length_pos.2 hs)
    simpa using this
  rw [h0]
  simp only
  rw [digit_run_checked_append pre s _ 1 (by simp only [List.length_append]; omega)]
  match s, hs with
  | [c], _ =>
    simp [head_len, char_at_cons_zero]
    split_ifs <;> rfl
  | [c, d], _ =>
    have h1 := read_at_append pre [c, d] 1 (by simp)
    simp only [h1, head_len, char_at_cons_zero, char_at_cons_succ]
    simp
    split_ifs <;> rfl
  | c :: d :: e :: r, _ =>
    have h1 := read_at_append pre (c :: d :: e :: r) 1 (by simp)
    have h2 := read_at_append pre (c :: d :: e :: r) 2 (by simp)
    simp only [h1, h2, head_len, char_at_cons_zero, char_at_cons_succ]
    simp only [List.length_append, List.length_cons, List.drop_succ_cons, List.drop_zero]
    by_cases hu : isupper c = true
    · by_cases hl : islower d = true <;> simp [hu, hl]
    · by_cases hd : isdigit c = true
      · simp [hu, hd]
      · by_cases hb1 : is_bond_char c = true
        · by_cases hb2 : is_bond_char d = true
          · by_cases hb3 : is_bond_char e = true <;> simp [hu, hd, hb1, hb2, hb3]
          · simp [hu, hd, hb1, hb2]
        · simp [hu, hd, hb1]

theorem pre_tokenize_loop_checked_append (fuel : Nat) (pre s : Str) (tokens : List TokenSpan)
    (hf : s.length < fuel) :
    pre_tokenize_loop_checked (pre ++ s) fuel pre.length tokens
      = some (tokens ++ scan_all pre.length s) := by
  induction fuel generalizing pre s tokens with
  | zero => omega
  | succ fuel ih =>
    match s with
    | [] => simp [pre_tokenize_loop_checked, scan_all_nil]
    | c :: cs =>
      have hlt : pre.length < (pre ++ c :: cs).length := by simp
      have hle := head_len_le (c :: cs)
      simp only [List.length_cons] at hf hle
      simp only [pre_tokenize_loop_checked, if_pos hlt,
        match_len_checked_append pre (c :: cs) (by simp)]
      rw [scan_all_cons]
      by_cases hpos : head_len (c :: cs) > 0
      · rw [if_pos hpos, if_pos hpos]
        have hsub : substr_checked (pre ++ c :: cs) pre.length (head_len (c :: cs))
            = some ((c :: cs).take (head_len (c :: cs))) := by
          unfold substr_checked
          rw [if_pos (by simp), substr_append]
        rw [hsub]
        simp only
        have hsplit : pre ++ c :: cs
            = (pre ++ (c :: cs).take (head_len (c :: cs))) ++ (c :: cs).drop (head_len (c :: cs)) := by
          rw [List.append_assoc, List.take_append_drop]
        have hlen : (pre ++ (c :: cs).take (head_len (c :: cs))).length
            = pre.length + head_len (c :: cs) := by
          rw [List.length_append, List.length_take, List.length_cons, Nat.min_eq_left hle]
        have := ih (pre ++ (c :: cs).take (head_len (c :: cs)))
          ((c :: cs).drop (head_len (c :: cs)))
          (tokens ++ [⟨(c :: cs).take (head_len (c :: cs)), pre.length,
            pre.length + head_len (c :: cs)⟩])
          (by simp only [List.length_drop, List.length_cons]; omega)
        rw [← hsplit, hlen] at this
        rw [this]
        simp
      · rw [if_neg hpos, if_neg hpos]
        have := ih (pre ++ [c]) cs tokens (by omega)
        simp only [List.append_assoc, List.singleton_append, List.length_append,
          List.length_singleton] at this
        exact this

/-- The checked scan returns, and returns the spans of `pre_tokenize`. -/
theorem pre_tokenize_checked_eq (text : Str) :
    pre_tokenize_checked text = some (pre_tokenize text) := by
  have := pre_tokenize_loop_checked_append (text.length + 1) [] text [] (by omega)
  simpa [pre_tokenize_checked, pre_tokenize_eq_scan_all] using this

theorem match_len_le (text : Str) (i : Nat) (h : i < text.length) :
    i + match_len text i ≤ text.length := by
  rw [match_len_eq_head_len_drop text i (Nat.le_of_lt h)]
  have := head_len_le (text.drop i)
  rw [List.length_drop] at this
  omega

/-! ## Only unmatched characters are dropped -/

theorem map_char_at_range (s pre : Str) (n : Nat) (h : n ≤ s.length) :
    (List.range' pre.length n).map (char_at (pre ++ s)) = s.take n := by
  induction n generalizing s pre with
  | zero => simp
  | succ n ih =>
    match s, h with
    | c :: cs, h =>
      rw [List.range'_succ, List.map_cons, List.take_succ_cons]
      have h0 := char_at_append pre (c :: cs) 0
      rw [Nat.add_zero, char_at_cons_zero] at h0
      rw [h0]
      have := ih cs (pre ++ [c]) (by simpa using h)
      simp only [List.append_assoc, List.singleton_append, List.length_append,
        List.length_singleton] at this
      rw [this]

theorem covered_cons (sp : TokenSpan) (rest : List TokenSpan) (i : Nat) :
    covered (sp :: rest) i = ((decide (sp.start ≤ i) && decide (i < sp.end_)) || covered rest i) := by
  simp [covered]

theorem covered_of_lt_start (spans : List TokenSpan) (i : Nat)
    (h : ∀ sp ∈ spans, i < sp.start) : covered spans i = false := by
  unfold covered
  rw [List.any_eq_false]
  intro sp hsp
  have := h sp hsp
  simp
  omega

theorem concat_tokens_scan_all (s pre : Str) :
    ((List.range' pre.length s.length).filter (covered (scan_all pre.length s))).map
        (char_at (pre ++ s)) = concat_tokens (scan_all pre.length s) := by
  generalize hn : s.length = n
  induction n using Nat.strong_induction_on generalizing s pre with
  | _ n ih =>
    match s with
    | [] =>
      subst hn
      simp [scan_all_nil, concat_tokens]
    | c :: cs =>
      rw [scan_all_cons]
      have hle := head_len_le (c :: cs)
      simp only [List.length_cons] at hle hn
      by_cases hpos : head_len (c :: cs) > 0
      · rw [if_pos hpos]
        have hsplit : pre ++ c :: cs
            = (pre ++ (c :: cs).take (head_len (c :: cs))) ++ (c :: cs).drop (head_len (c :: cs)) := by
          rw [List.append_assoc, List.take_append_drop]
        have hlen : (pre ++ (c :: cs).take (head_len (c :: cs))).length
            = pre.length + head_len (c :: cs) := by
          rw [List.length_append, List.length_take, List.length_cons, Nat.min_eq_left hle]
        have hdl : ((c :: cs).drop (head_len (c :: cs))).length = n - head_len (c :: cs) := by
          simp only [List.length_drop, List.length_cons]; omega
        have hrec := ih (n - head_len (c :: cs)) (by omega)
          ((c :: cs).drop (head_len (c :: cs)))
          (pre ++ (c :: cs).take (head_len (c :: cs))) hdl
        rw [← hsplit, hlen] at hrec
        have hrange : List.range' pre.length n
            = List.range' pre.length (head_len (c :: cs)) ++
              List.range' (pre.length + head_len (c :: cs)) (n - head_len (c :: cs)) := by
          have := List.range'_append pre.length (head_len (c :: cs)) (n - head_len (c :: cs)) 1
          rw [Nat.one_mul] at this
          rw [this]
          congr 1
          omega
        rw [hrange, List.filter_append, List.map_append, concat_tokens]
        congr 1
        · have hall : (List.range' pre.length (head_len (c :: cs))).filter
              (covered (⟨(c :: cs).take (head_len (c :: cs)), pre.length,
                pre.length + head_len (c :: cs)⟩ ::
                scan_all (pre.length + head_len (c :: cs))
                  ((c :: cs).drop (head_len (c :: cs)))))
              = List.range' pre.length (head_len (c :: cs)) := by
            rw [List.filter_eq_self]
            intro i hi
            rw [List.mem_range'_1] at hi
            rw [covered_cons]
            simp [hi.1, hi.2]
          rw [hall]
          exact map_char_at_range (c :: cs) pre _ (by simpa using hle)
        · rw [← hrec]
          congr 1
          apply List.filter_congr
          intro i hi
          rw [List.mem_range'_1] at hi
          rw [covered_cons]
          have : decide (i < pre.length + head_len (c :: cs)) = false := by
            simp only [decide_eq_false_iff_not]; omega
          simp [this]
      · rw [if_neg hpos]
        have hrec := ih cs.length (by omega) cs (pre ++ [c]) rfl
        simp only [List.append_assoc, List.singleton_append, List.length_append,
          List.length_singleton] at hrec
        have hn1 : n = cs.length + 1 := hn.symm
        rw [hn1, List.range'_succ, List.filter_cons]
        have hun : covered (scan_all (pre.length + 1) cs) pre.length = false := by
          apply covered_of_lt_start
          intro sp hsp
          have := ((scan_all_spans cs (pre.length + 1)).1 sp hsp).1
          omega
        rw [hun]
        simpa using hrec

theorem uncovered_scan_all (s : Str) (off i : Nat) (h1 : off ≤ i) (h2 : i < off + s.length)
    (hc : covered (scan_all off s) i = false) : head_len (s.drop (i - off)) = 0 := by
  generalize hn : s.length = n
  induction n using Nat.strong_induction_on generalizing s off with
  | _ n ih =>
    match s with
    | [] =>
      simp only [List.length_nil] at h2
      omega
    | c :: cs =>
      rw [scan_all_cons] at hc
      have hle := head_len_le (c :: cs)
      simp only [List.length_cons] at hle hn h2
      by_cases hpos : head_len (c :: cs) > 0
      · rw [if_pos hpos, covered_cons] at hc
        simp only [Bool.or_eq_false_iff, Bool.and_eq_false_iff, decide_eq_false_iff_not] at hc
        obtain ⟨hhd, hrest⟩ := hc
        have hge : off + head_len (c :: cs) ≤ i := by
          rcases hhd with hhd | hhd
          · exact absurd h1 hhd
          · omega
        have hrec := ih (n - head_len (c :: cs)) (by omega)
          ((c :: cs).drop (head_len (c :: cs))) (off + head_len (c :: cs)) hge
          (by simp only [List.length_drop, List.length_cons]; omega) hrest
          (by simp only [List.length_drop, List.length_cons]; omega)
        rw [List.drop_drop] at hrec
        have e : head_len (c :: cs) + (i - (off + head_len (c :: cs))) = i - off := by omega
        rw [e] at hrec
        exact hrec
      · rw [if_neg hpos] at hc
        by_cases hi : i = off
        · subst hi
          simp only [Nat.sub_self, List.drop_zero]
          omega
        · have hrec := ih cs.length (by omega) cs (off + 1) (by omega) (by omega) hc rfl
          have e : i - off = (i - (off + 1)) + 1 := by omega
          rw [e, List.drop_succ_cons]
          exact hrec

theorem head_len_zero_not_isupper (c : Char) (cs : Str) (h : head_len (c :: cs) = 0) :
    isupper c = false := by
  by_contra hu
  simp only [Bool.not_eq_false] at hu
  simp only [head_len, hu, if_true] at h
  split at h
  · split_ifs at h
  · simp at h

theorem uncovered_pre_tokenize (text : Str) (i : Nat) (h : i < text.length)
    (hc : covered (pre_tokenize text) i = false) :
    match_len text i = 0 ∧ isupper (char_at text i) = false ∧
      isdigit (char_at text i) = false := by
  rw [pre_tokenize_eq_scan_all] at hc
  have h0 := uncovered_scan_all text 0 i (Nat.zero_le _) (by omega) hc
  rw [Nat.sub_zero] at h0
  refine ⟨by rw [match_len_eq_head_len_drop text i (Nat.le_of_lt h)]; exact h0, ?_⟩
  rw [List.drop_eq_getElem_cons h] at h0
  have hc1 : char_at text i = text[i] := by
    simp [char_at, List.getD_eq_getElem?_getD, List.getElem?_eq_getElem h]
  rw [hc1]
  exact ⟨head_len_zero_not_isupper _ _ h0, head_len_zero_not_isdigit _ _ h0⟩

/-! ## The scan loop and the pattern -/

theorem class_upper_eq (c : Char) : class_upper c = isupper c := by
  rw [Bool.eq_iff_iff]
  simp only [class_upper, isupper, Bool.and_eq_true, decide_eq_true_eq]
  exact Iff.rfl

theorem class_lower_eq (c : Char) : class_lower c = islower c := by
  rw [Bool.eq_iff_iff]
  simp only [class_lower, islower, Bool.and_eq_true, decide_eq_true_eq]
  exact Iff.rfl

theorem class_digit_eq (c : Char) : class_digit c = isdigit c := by
  rw [Bool.eq_iff_iff]
  simp only [class_digit, isdigit, Bool.and_eq_true, decide_eq_true_eq]
  exact Iff.rfl

theorem class_bond_eq (c : Char) : class_bond c = is_bond_char c := by
  rw [Bool.eq_iff_iff]
  simp [class_bond, is_bond_char, or_assoc]

theorem head_star_ends (p : Char → Bool) (s : Str) :
    (star_ends p s).head? = some (s.dropWhile p) := by
  induction s with
  | nil => rfl
  | cons c cs ih =>
    unfold star_ends
    by_cases hc : p c = true
    · rw [if_pos hc, List.dropWhile_cons_of_pos hc]
      cases hs : star_ends p cs with
      | nil => rw [hs] at ih; cases ih
      | cons x xs =>
        rw [hs] at ih
        simpa using ih
    · rw [if_neg hc, List.dropWhile_cons_of_neg hc]
      rfl

theorem length_dropWhile_add (p : Char → Bool) (s : Str) :
    (s.dropWhile p).length + (s.takeWhile p).length = s.length := by
  have := congrArg List.length (List.takeWhile_append_dropWhile p s)
  rw [List.length_append] at this
  omega

/-- The first way in which the pattern matches at the start of `s` has the length that the loop
body computes, and the pattern does not match there when the loop body computes 0. -/
theorem match_at_slices_regex (s : Str) :
    slices_regex.match_at s = if head_len s > 0 then some (head_len s) else none := by
  have hU : class_upper = isupper := funext class_upper_eq
  have hL : class_lower = islower := funext class_lower_eq
  have hD : class_digit = isdigit := funext class_digit_eq
  have hB : class_bond = is_bond_char := funext class_bond_eq
  unfold slices_regex Regex.match_at
  rw [hU, hL, hD, hB]
  match s with
  | [] => simp [Regex.ends, ends_then, head_len]
  | c :: cs =>
    by_cases hu : isupper c = true
    · match cs with
      | [] => simp [Regex.ends, ends_then, head_len, hu]
      | d :: r =>
        by_cases hl : islower d = true
        · simp [Regex.ends, ends_then, head_len, hu, hl]
          omega
        · simp [Regex.ends, ends_then, head_len, hu, hl]
    · by_cases hd : isdigit c = true
      · have h1 := head_star_ends isdigit cs
        have h2 := length_dropWhile_add isdigit cs
        cases hs : star_ends isdigit cs with
        | nil => rw [hs] at h1; cases h1
        | cons x xs =>
          rw [hs] at h1
          simp only [List.head?_cons, Option.some.injEq] at h1
          subst h1
          simp [Regex.ends, ends_then, head_len, hu, hd, hs]
          omega
      · match cs with
        | [] =>
          by_cases hb1 : is_bond_char c = true
          · simp [Regex.ends, ends_then, head_len, hu, hd, hb1]
          · simp [Regex.ends, ends_then, head_len, hu, hd, hb1]
        | [d] =>
          by_cases hb1 : is_bond_char c = true
          · by_cases hb2 : is_bond_char d = true
            · simp [Regex.ends, ends_then, head_len, hu, hd, hb1, hb2]
            · simp [Regex.ends, ends_then, head_len, hu, hd, hb1, hb2]
          · simp [Regex.ends, ends_then, head_len, hu, hd, hb1]
        | d :: e :: r =>
          by_cases hb1 : is_bond_char c = true
          · by_cases hb2 : is_bond_char d = true
            · by_cases hb3 : is_bond_char e = true
              · simp [Regex.ends, ends_then, head_len, hu, hd, hb1, hb2, hb3]
                omega
              · simp [Regex.ends, ends_then, head_len, hu, hd, hb1, hb2, hb3]
            · simp [Regex.ends, ends_then, head_len, hu, hd, hb1, hb2]
          · simp [Regex.ends, ends_then, head_len, hu, hd, hb1]

theorem leftmost_match_pos (s : Str) (q n : Nat)
    (h : leftmost_match slices_regex s = some (q, n)) : 0 < n ∧ q + n ≤ s.length := by
  induction s generalizing q n with
  | nil => simp [leftmost_match] at h
  | cons c cs ih =>
    have hle := head_len_le (c :: cs)
    simp only [leftmost_match, match_at_slices_regex] at h
    by_cases hpos : head_len (c :: cs) > 0
    · rw [if_pos hpos] at h
      simp only [Option.some.injEq, Prod.mk.injEq] at h
      obtain ⟨rfl, rfl⟩ := h
      exact ⟨hpos, by omega⟩
    · rw [if_neg hpos] at h
      simp only at h
      cases hl : leftmost_match slices_regex cs with
      | none => rw [hl] at h; cases h
      | some p =>
        obtain ⟨q1, n1⟩ := p
        rw [hl] at h
        simp only [Option.some.injEq, Prod.mk.injEq] at h
        obtain ⟨rfl, rfl⟩ := h
        have := ih q1 n1 hl
        simp only [List.length_cons]
        omega

/-- The scan loop finds the leftmost match of the pattern and goes on behind it. -/
theorem scan_all_leftmost (s : Str) (off : Nat) :
    scan_all off s =
      match leftmost_match slices_regex s with
      | none => []
      | some (q, n) =>
        ⟨(s.drop q).take n, off + q, off + q + n⟩ :: scan_all (off + q + n) (s.drop (q + n)) := by
  induction s generalizing off with
  | nil => rfl
  | cons c cs ih =>
    rw [scan_all_cons]
    simp only [leftmost_match, match_at_slices_regex]
    by_cases hpos : head_len (c :: cs) > 0
    · rw [if_pos hpos, if_pos hpos]
      simp
    · rw [if_neg hpos, if_neg hpos]
      simp only
      rw [ih (off + 1)]
      cases hl : leftmost_match slices_regex cs with
      | none => rfl
      | some p =>
        obtain ⟨q1, n1⟩ := p
        simp only [List.drop_succ_cons]
        have e1 : off + 1 + q1 = off + (q1 + 1) := by omega
        have e2 : q1 + 1 + n1 = (q1 + n1) + 1 := by omega
        rw [e1, e2, List.drop_succ_cons]

theorem regex_matches_eq_scan_all (fuel : Nat) (s : Str) (off : Nat) (hf : s.length < fuel) :
    regex_matches slices_regex fuel off s = scan_all off s := by
  induction fuel generalizing s off with
  | zero => omega
  | succ fuel ih =>
    rw [scan_all_leftmost, regex_matches]
    cases hl : leftmost_match slices_regex s with
    | none => rfl
    | some p =>
      obtain ⟨q, n⟩ := p
      obtain ⟨hn, hq⟩ := leftmost_match_pos s q n hl
      have hmax : max n 1 = n := by omega
      simp only [hmax]
      rw [ih (s.drop (q + n)) _ (by simp only [List.length_drop]; omega)]

/-- C11: for every id sequence and every vocabulary state, `decode` is the list of the strings
`id_to_token(id)` with exactly one space between neighbours, none before the first or after
the last, and the empty string for the empty sequence; an id that the reverse map does not
hold contributes the unknown-token string. -/
theorem decode_joins_tokens (t : SLICESTokenizer) (ids : List Int) (a b id : Int) :
    decode t ids = List.intercalate [' '] (ids.map (id_to_token t)) ∧
      decode t [] = [] ∧
      decode t [a] = id_to_token t a ∧
      decode t (a :: b :: ids) = id_to_token t a ++ ' ' :: decode t (b :: ids) ∧
      id_to_token t id = (find t.id_to_token_ id).getD t.unk_token_ := by
  refine ⟨?_, rfl, ?_, ?_, id_to_token_eq t id⟩
  · rw [decode_eq, join_eq_intercalate]
  · rw [decode_eq]
    rfl
  · rw [decode_eq, decode_eq]
    rfl

/-- C14: after training on any corpus with any capacity, forward and reverse map are mutually
inverse, the ids are exactly `0, ..., N - 1` with `N = get_vocab_size()`, each held by one
token, and no token has two entries. -/
theorem train_bijection (L : StdLib) (t : SLICESTokenizer) (training_data : List Str)
    (vocab_size : Int) (tok : Str) (id : Int) :
    (find (train_from_iterator L t training_data vocab_size).vocab_ tok = some id ↔
        find (train_from_iterator L t training_data vocab_size).id_to_token_ id = some tok) ∧
      (train_from_iterator L t training_data vocab_size).vocab_.map Prod.snd =
        (List.range (get_vocab_size
          (train_from_iterator L t training_data vocab_size)).toNat).map (fun (i : Nat) => (i : Int)) ∧
      (train_from_iterator L t training_data vocab_size).id_to_token_ =
        (train_from_iterator L t training_data vocab_size).vocab_.map Prod.swap ∧
      ((train_from_iterator L t training_data vocab_size).vocab_.map Prod.fst).Nodup ∧
      ((train_from_iterator L t training_data vocab_size).vocab_.map Prod.snd).Nodup := by
  obtain ⟨hk, hv, _, hinv⟩ := train_well_formed L t training_data vocab_size
  refine ⟨train_inverse_iff L t training_data vocab_size tok id, ?_, hinv, hk, hv⟩
  rw [train_ids_dense]
  simp [get_vocab_size]

/-- C19: after training, the vocabulary size is `6 + min(D, max(0, capacity - 6))`, where `D` is
the number of distinct token texts that `pre_tokenize` produces over the corpus; the empty
corpus gives 6, and so does every capacity below 6. -/
theorem vocab_size_exact (L : StdLib) (t : SLICESTokenizer) (training_data : List Str)
    (vocab_size : Int) :
    get_vocab_size (train_from_iterator L t training_data vocab_size) =
        6 + min ((corpus_tokens training_data).dedup.length : Int) (max 0 (vocab_size - 6)) ∧
      get_vocab_size (train_from_iterator L t [] vocab_size) = 6 ∧
      get_vocab_size (train_from_iterator L t training_data (min vocab_size 5)) = 6 := by
  simp only [get_vocab_size, length_train_vocab]
  refine ⟨?_, ?_, ?_⟩
  · omega
  · simp [corpus_tokens]
  · have : (min vocab_size 5 - 6).toNat = 0 := by omega
    simp [this]

/-- C12, as stated, fails: a record that has `vocab_size` and `unk_token` but no `vocab` is
loaded without an error, with an empty vocabulary. -/
theorem load_accepts_missing_vocab :
    record_without_vocab.members =
        some [("unk_token".toList, Json.string "[UNK]".toList),
          ("vocab_size".toList, Json.number 10)] ∧
      (find [("unk_token".toList, Json.string "[UNK]".toList),
          ("vocab_size".toList, Json.number 10)] "vocab".toList).isNone = true ∧
      (load insertion_order_lib SLICESTokenizer.new record_without_vocab).failed = false ∧
      (load insertion_order_lib SLICESTokenizer.new record_without_vocab).state.vocab_ = [] :=
  ⟨rfl, by decide, by decide, by decide⟩

/-- C12, amended: `load` fails with an error on every record that is missing the `vocab_size`
field and on every record that is missing the `unk_token` field. -/
theorem load_rejects_missing_fields (L : StdLib) (t : SLICESTokenizer)
    (kvs : List (Str × Json))
    (h : find kvs "vocab_size".toList = none ∨ find kvs "unk_token".toList = none) :
    (load L t (Json.object kvs)).failed = true := by
  cases hn : (json_field kvs "vocab_size".toList).to_int with
  | none =>
    rw [load_fails_on_vocab_size L t (Json.object kvs) (Or.inr ⟨kvs, rfl, hn⟩)]
    rfl
  | some n =>
    rcases h with h | h
    · rw [json_field_of_find_eq_none kvs _ h, to_int_null] at hn
      cases hn
    · rw [load_fails_on_unk_token L t (Json.object kvs) kvs n rfl hn
        (by rw [json_field_of_find_eq_none kvs _ h, to_str_null])]
      rfl

/-- Witness for C12, amended: a record without `unk_token`. -/
theorem load_rejects_missing_fields_witness :
    (find [("vocab".toList, Json.object [("Ga".toList, Json.number 6)]),
        ("vocab_size".toList, Json.number 5)] "vocab_size".toList = none ∨
      find [("vocab".toList, Json.object [("Ga".toList, Json.number 6)]),
        ("vocab_size".toList, Json.number 5)] "unk_token".toList = none) ∧
      (load insertion_order_lib SLICESTokenizer.new
        (Json.object [("vocab".toList, Json.object [("Ga".toList, Json.number 6)]),
          ("vocab_size".toList, Json.number 5)])).failed = true :=
  ⟨Or.inr rfl,
    load_rejects_missing_fields insertion_order_lib SLICESTokenizer.new _ (Or.inr rfl)⟩

/-- C13, as stated, fails: a record without `unk_token` makes `load` fail after the capacity
was overwritten, and a record with a string in place of an id makes it fail after capacity and
unknown-token string were overwritten and both maps of a trained tokenizer were cleared. -/
theorem load_failure_changes_state :
    (load insertion_order_lib SLICESTokenizer.new record_without_unk_token).failed = true ∧
      SLICESTokenizer.new.vocab_size_ = 1000 ∧
      (load insertion_order_lib SLICESTokenizer.new record_without_unk_token).state.vocab_size_
        = 5 ∧
      (load insertion_order_lib
        (train_from_iterator insertion_order_lib SLICESTokenizer.new ["Ga".toList] 1000)
        record_with_bad_id).failed = true ∧
      (train_from_iterator insertion_order_lib SLICESTokenizer.new ["Ga".toList] 1000).vocab_.length
        = 7 ∧
      (load insertion_order_lib
        (train_from_iterator insertion_order_lib SLICESTokenizer.new ["Ga".toList] 1000)
        record_with_bad_id).state.vocab_ = [] ∧
      (load insertion_order_lib
        (train_from_iterator insertion_order_lib SLICESTokenizer.new ["Ga".toList] 1000)
        record_with_bad_id).state.id_to_token_ = [] ∧
      (load insertion_order_lib
        (train_from_iterator insertion_order_lib SLICESTokenizer.new ["Ga".toList] 1000)
        record_with_bad_id).state.unk_token_ = "?".toList := by
  decide

/-- C13, amended: `load` is all-or-nothing when it fails on the `vocab_size` field: for every
tokenizer state and every record that is no object, or whose `vocab_size` is missing or is
neither a number nor a boolean (so that its conversion to `int` fails), `load` fails and
forward map, reverse map, capacity and unknown-token string are what they were before the
call. -/
theorem load_failure_on_vocab_size_keeps_state (L : StdLib) (t : SLICESTokenizer)
    (config : Json)
    (h : config.members = none ∨
      ∃ kvs, config.members = some kvs ∧
        (∀ n, json_field kvs "vocab_size".toList ≠ Json.number n) ∧
        (∀ b, json_field kvs "vocab_size".toList ≠ Json.boolean b)) :
    (load L t config).failed = true ∧ (load L t config).state = t := by
  have h1 : config.members = none ∨
      ∃ kvs, config.members = some kvs ∧
        (json_field kvs "vocab_size".toList).to_int = none := by
    rcases h with h | ⟨kvs, hm, hn, hb⟩
    · exact Or.inl h
    · refine Or.inr ⟨kvs, hm, ?_⟩
      cases hv : json_field kvs "vocab_size".toList with
      | null => rfl
      | boolean b => exact absurd hv (hb b)
      | number n => exact absurd hv (hn n)
      | string s => rfl
      | array xs => rfl
      | object o => rfl
  rw [load_fails_on_vocab_size L t config h1]
  exact ⟨rfl, rfl⟩

/-- Witness for C13, amended: a record whose `vocab_size` is a string, loaded into a trained
tokenizer. -/
theorem load_failure_on_vocab_size_keeps_state_witness :
    (load insertion_order_lib
        (train_from_iterator insertion_order_lib SLICESTokenizer.new ["Ga".toList] 1000)
        (Json.object [("unk_token".toList, Json.string "?".toList),
          ("vocab_size".toList, Json.string "big".toList)])).failed = true ∧
      (load insertion_order_lib
        (train_from_iterator insertion_order_lib SLICESTokenizer.new ["Ga".toList] 1000)
        (Json.object [("unk_token".toList, Json.string "?".toList),
          ("vocab_size".toList, Json.string "big".toList)])).state
        = train_from_iterator insertion_order_lib SLICESTokenizer.new ["Ga".toList] 1000 :=
  load_failure_on_vocab_size_keeps_state insertion_order_lib
    (train_from_iterator insertion_order_lib SLICESTokenizer.new ["Ga".toList] 1000)
    (Json.object [("unk_token".toList, Json.string "?".toList),
      ("vocab_size".toList, Json.string "big".toList)])
    (Or.inr ⟨_, rfl, fun _ hn => Json.noConfusion hn, fun _ hb => Json.noConfusion hb⟩)

/-- C15, as stated, fails: `load` accepts a record whose `vocab` gives `a` and `b` the same id;
afterwards the forward map has two entries and the reverse map one, and the id of `a` names
`b`. -/
theorem load_shared_id_breaks_bijection :
    (load insertion_order_lib SLICESTokenizer.new record_with_shared_id).failed = false ∧
      in_vocab (load insertion_order_lib SLICESTokenizer.new record_with_shared_id).state
        "a".toList = true ∧
      id_to_token (load insertion_order_lib SLICESTokenizer.new record_with_shared_id).state
        (token_to_id (load insertion_order_lib SLICESTokenizer.new record_with_shared_id).state
          "a".toList) = "b".toList ∧
      (load insertion_order_lib SLICESTokenizer.new record_with_shared_id).state.vocab_.length
        = 2 ∧
      (load insertion_order_lib SLICESTokenizer.new
        record_with_shared_id).state.id_to_token_.length = 1 := by
  decide

/-- C15, amended: loading preserves the vocabulary bijection when the ids are pairwise
distinct: for every record that `load` accepts and whose `vocab` maps pairwise distinct tokens
to ids that are pairwise distinct as `int`, after `load` the forward and the reverse map are
mutually inverse, `id_to_token(token_to_id(t)) == t` for every token `t` of the loaded
vocabulary, and the two maps have the same number of entries. -/
theorem load_bijection_of_distinct_ids (L : StdLib) (t t1 : SLICESTokenizer) (config : Json)
    (kvs : List (Str × Json)) (hm : config.members = some kvs)
    (hload : load L t config = LoadResult.returned t1)
    (hkeys : ((json_field kvs "vocab".toList).items.map Prod.fst).Nodup)
    (hids : ((json_field kvs "vocab".toList).items.map (fun p => p.2.to_int)).Nodup) :
    (∀ tok id, find t1.vocab_ tok = some id ↔ find t1.id_to_token_ id = some tok) ∧
      (∀ tok, in_vocab t1 tok = true → id_to_token t1 (token_to_id t1 tok) = tok) ∧
      t1.vocab_.length = t1.id_to_token_.length := by
  obtain ⟨kvs1, n, u, t4, hm1, _, _, hl, hv1, hr1, _, _⟩ := load_returned L t t1 config hload
  rw [hm] at hm1
  cases hm1
  obtain ⟨hinv, hk, hv⟩ := load_vocab_loop_distinct _ _ t4 hl (by simpa using hkeys)
    (by simpa using hids) rfl
  rw [← hv1, ← hr1] at hinv
  rw [← hv1] at hk hv
  have hiff : ∀ tok id, find t1.vocab_ tok = some id ↔ find t1.id_to_token_ id = some tok := by
    intro tok id
    rw [hinv]
    exact find_swap_iff t1.vocab_ hk hv tok id
  refine ⟨hiff, ?_, ?_⟩
  · intro tok hin
    obtain ⟨id, hid⟩ := Option.isSome_iff_exists.1 hin
    simp only [token_to_id_eq, id_to_token_eq, hid, Option.getD_some, (hiff tok id).1 hid]
  · rw [hinv, List.length_map]

/-- Witness for C15, amended: a record with two tokens and two ids. -/
theorem load_bijection_of_distinct_ids_witness :
    ∃ t1, load insertion_order_lib SLICESTokenizer.new
        (Json.object [("unk_token".toList, Json.string "[UNK]".toList),
          ("vocab".toList, Json.object [("a".toList, Json.number 1), ("b".toList, Json.number 2)]),
          ("vocab_size".toList, Json.number 10)]) = LoadResult.returned t1 ∧
      (∀ tok id, find t1.vocab_ tok = some id ↔ find t1.id_to_token_ id = some tok) ∧
      (∀ tok, in_vocab t1 tok = true → id_to_token t1 (token_to_id t1 tok) = tok) ∧
      t1.vocab_.length = t1.id_to_token_.length :=
  ⟨_, rfl,
    load_bijection_of_distinct_ids insertion_order_lib SLICESTokenizer.new _
      (Json.object [("unk_token".toList, Json.string "[UNK]".toList),
        ("vocab".toList, Json.object [("a".toList, Json.number 1), ("b".toList, Json.number 2)]),
        ("vocab_size".toList, Json.number 10)]) _ rfl rfl (by decide) (by decide)⟩

/-- C16: every token that `pre_tokenize` emits is the text between the offsets of its span
and has exactly one of the three shapes, maximal for it: (a) one uppercase letter, followed by
one lowercase letter exactly when the next character of the text is a lowercase letter, or
(b) a non-empty run of digits with no digit before its start and none at its end in the text,
or (c) three characters from `+`, `-`, `o`. -/
theorem pre_tokenize_token_shape (text : Str) (sp : TokenSpan) (h : sp ∈ pre_tokenize text) :
    sp.token = substr text sp.start (sp.end_ - sp.start) ∧
      (is_element_symbol sp.token).toNat + (is_digit_run sp.token).toNat +
        (is_bond_triplet sp.token).toNat = 1 ∧
      ((is_element_symbol sp.token = true ∧
          (sp.token.length = 2 ↔
            (sp.start + 1 < text.length ∧ islower (char_at text (sp.start + 1)) = true))) ∨
        (is_digit_run sp.token = true ∧
          (sp.start = 0 ∨ isdigit (char_at text (sp.start - 1)) = false) ∧
          (sp.end_ = text.length ∨ isdigit (char_at text sp.end_) = false)) ∨
        is_bond_triplet sp.token = true) := by
  obtain ⟨hlt, hpos, htok, hend, hle, hb⟩ := pre_tokenize_span_at text sp h
  have hm := match_len_eq_head_len_drop text sp.start (Nat.le_of_lt hlt)
  rw [hm] at hpos htok hend
  have hsub : sp.end_ - sp.start = head_len (text.drop sp.start) := by omega
  have htok1 : sp.token = (text.drop sp.start).take (head_len (text.drop sp.start)) := htok
  have hlen : sp.token.length = head_len (text.drop sp.start) := by
    rw [htok1, List.length_take]
    exact Nat.min_eq_left (head_len_le _)
  have hshape := head_len_shape (text.drop sp.start) hpos
  rw [← htok1, char_at_drop, char_at_drop, char_at_drop, List.length_drop, ← hend, ← hlen,
    Nat.add_zero] at hshape
  have hdisj : (is_element_symbol sp.token = true ∧
        (sp.token.length = 2 ↔
          (sp.start + 1 < text.length ∧ islower (char_at text (sp.start + 1)) = true))) ∨
      (is_digit_run sp.token = true ∧
        (sp.start = 0 ∨ isdigit (char_at text (sp.start - 1)) = false) ∧
        (sp.end_ = text.length ∨ isdigit (char_at text sp.end_) = false)) ∨
      is_bond_triplet sp.token = true := by
    rcases hshape with ⟨h1, h2⟩ | ⟨h1, h2, h3⟩ | h1
    · refine Or.inl ⟨h1, h2.trans ?_⟩
      constructor
      · rintro ⟨ha, hb1⟩
        exact ⟨by omega, hb1⟩
      · rintro ⟨ha, hb1⟩
        exact ⟨by omega, hb1⟩
    · refine Or.inr (Or.inl ⟨h1, ?_, Or.inr h3⟩)
      simp only [digit_border, Bool.or_eq_true, beq_iff_eq, Bool.not_eq_true'] at hb
      rcases hb with hb | hb
      · exact Or.inl hb
      · rw [Nat.add_zero] at h2
        rw [h2, Bool.and_true] at hb
        exact Or.inr hb
    · exact Or.inr (Or.inr h1)
  refine ⟨by rw [hsub]; exact htok, ?_, hdisj⟩
  have hex := shape_exclusive sp.token
  rcases hdisj with ⟨h1, _⟩ | ⟨h1, _⟩ | h1
  · rw [h1] at hex ⊢
    simp only [Bool.toNat_true] at hex ⊢
    omega
  · rw [h1] at hex ⊢
    simp only [Bool.toNat_true] at hex ⊢
    omega
  · rw [h1] at hex ⊢
    simp only [Bool.toNat_true] at hex ⊢
    omega

/-- Witness for C16: the digit run `12` of the text `Ga12 x3`. -/
theorem pre_tokenize_token_shape_witness :
    (⟨"12".toList, 2, 4⟩ : TokenSpan) ∈ pre_tokenize "Ga12 x3".toList ∧
      "12".toList = substr "Ga12 x3".toList 2 (4 - 2) ∧
      (is_element_symbol "12".toList).toNat + (is_digit_run "12".toList).toNat +
        (is_bond_triplet "12".toList).toNat = 1 ∧
      ((is_element_symbol "12".toList = true ∧
          ("12".toList.length = 2 ↔
            (2 + 1 < "Ga12 x3".toList.length ∧
              islower (char_at "Ga12 x3".toList (2 + 1)) = true))) ∨
        (is_digit_run "12".toList = true ∧
          (2 = 0 ∨ isdigit (char_at "Ga12 x3".toList (2 - 1)) = false) ∧
          (4 = "Ga12 x3".toList.length ∨ isdigit (char_at "Ga12 x3".toList 4) = false)) ∨
        is_bond_triplet "12".toList = true) :=
  ⟨by decide, pre_tokenize_token_shape "Ga12 x3".toList ⟨"12".toList, 2, 4⟩ (by decide)⟩

/-- C20: `pre_tokenize` reads only inside the text and terminates: the loop with every read
checked, bounded by `text.length() + 1` evaluations of its condition, returns the spans of
`pre_tokenize` (no read outside, no exhausted bound), also on the empty text; a larger bound
changes nothing; every iteration moves `i` forward by at least one and never beyond the end;
and every span has `0 <= start < end <= text.length()` and the token `text[start, end)`. -/
theorem pre_tokenize_safe (text : Str) :
    pre_tokenize_checked text = some (pre_tokenize text) ∧
      pre_tokenize_checked [] = some [] ∧
      (∀ fuel, text.length ≤ fuel → pre_tokenize_loop text fuel 0 [] = pre_tokenize text) ∧
      (∀ i, i < text.length →
        i < (if match_len text i > 0 then i + match_len text i else i + 1) ∧
          (if match_len text i > 0 then i + match_len text i else i + 1) ≤ text.length) ∧
      (∀ sp ∈ pre_tokenize text,
        0 ≤ sp.start ∧ sp.start < sp.end_ ∧ sp.end_ ≤ text.length ∧
          sp.token = substr text sp.start (sp.end_ - sp.start)) := by
  refine ⟨pre_tokenize_checked_eq text, rfl, fun fuel hf => pre_tokenize_loop_fuel text fuel hf,
    ?_, ?_⟩
  · intro i hi
    have := match_len_le text i hi
    split_ifs with h
    · exact ⟨by omega, this⟩
    · exact ⟨by omega, by omega⟩
  · intro sp hsp
    obtain ⟨_, hpos, htok, hend, hle, _⟩ := pre_tokenize_span_at text sp hsp
    have hsub : sp.end_ - sp.start = match_len text sp.start := by omega
    exact ⟨Nat.zero_le _, by omega, hle, by rw [hsub]; exact htok⟩

/-- C17: the hand-written scanner agrees with the pattern that the tokenizer declares: for
every text, the spans of `pre_tokenize` (token, start, end) are the successive non-overlapping
leftmost matches of `[A-Z][a-z]?|\d+|[+\-o]{3}` with ordered alternation and greedy
repetition; this pattern is the text that the constructor stores and that `save` writes in the
`pattern` field. -/
theorem pre_tokenize_eq_regex_tokenize (text : Str) (t : SLICESTokenizer) :
    pre_tokenize text = regex_tokenize text ∧
      SLICESTokenizer.new.slices_pattern_ = slices_pattern_text ∧
      (∃ kvs, save t = Json.object kvs ∧
        json_field kvs "pattern".toList = Json.string slices_pattern_text) := by
  refine ⟨?_, rfl, ⟨_, rfl, rfl⟩⟩
  rw [regex_tokenize, regex_matches_eq_scan_all _ _ _ (by omega), pre_tokenize_eq_scan_all]

/-- C18: segmentation drops only unmatched characters: the concatenation of the token texts
is the text with the characters outside all spans deleted, and at every position outside all
spans no rule matched; in particular the character there is no uppercase letter and no
digit. -/
theorem pre_tokenize_drops_only_unmatched (text : Str) :
    concat_tokens (pre_tokenize text) = covered_text text (pre_tokenize text) ∧
      (∀ i, i < text.length → covered (pre_tokenize text) i = false →
        match_len text i = 0 ∧ isupper (char_at text i) = false ∧
          isdigit (char_at text i) = false) := by
  refine ⟨?_, fun i hi hc => uncovered_pre_tokenize text i hi hc⟩
  have := concat_tokens_scan_all text []
  simp only [List.length_nil, List.nil_append] at this
  rw [covered_text, List.range_eq_range', pre_tokenize_eq_scan_all, this]

end Slices
